import Mathlib

/-!
# Verification of the yamlfig configuration-composition core

Shallow embedding of the yamlfig repository (SamsungLabs/yamlfig):
  * `src/yamlfig/nodes/composed.py` — path language (`split_path` / `join_path`),
    `get_node`, `get_first_not_missing_node`, `filter_nodes`, `map_nodes`,
    `yamlfigns.merge`;
  * `awesomeyaml/nodes/node.py` — flag properties (`priority`, `delete`,
    `allow_new`), `has_priority_over`, the leaf `ayns.merge`, `evaluate_node`,
    and the metaclass `ConfigNodeMeta.__call__`;
  * `src/yamlfig/nodes/dict.py` — `ConfigDict.merge`, `_set`, `_get_value`.

Python strings are modelled as `List Char`; Python `int` as `Int`/`Nat`;
Python object identity (`id()`) as an explicit `nid : Nat` field carried by
every node; mutation is modelled by explicit state passing (functions return
the mutated tree).  Scalar payloads are modelled as integers, which is enough
to express Python truthiness (`bool(0) = False`).
-/

namespace Yamlfig

/-! ## Path language (ComposedNode.split_path / join_path)

`split_path` runs `_path_component_regex.finditer` over the string and, with
`validate=True`, rejects the string unless the matches tile it contiguously
from position 0 to the end.  Under that validation the scan is equivalent to
sequential matching: at each position the regex alternatives are tried in
order (identifier — only at the start or after a dot —, then `[-?digits]`,
then a separator dot that must not be first, last, or followed by `.`/`[`).
The parser below performs exactly that sequential scan and returns `none`
where the source raises `ValueError('Invalid path: ...')`. -/

/-- One component as yielded by `split_path`: a textual identifier
(`match.group(1)`, yielded as `str`) or a bracketed integer
(`match.group(2)`, yielded as `int`). -/
inductive PathComp where
  | name (s : List Char)
  | index (n : Int)
deriving DecidableEq, Repr

/-- A component as matched textually by the regex, before `int()` conversion:
for an index we keep the sign and the digit characters exactly as they
appeared in the string. -/
inductive RawComp where
  | name (s : List Char)
  | index (neg : Bool) (digits : List Char)
deriving DecidableEq, Repr

/-- The character class `[a-zA-Z0-9_]` of the identifier alternative. -/
def identChar (c : Char) : Bool :=
  (('a' ≤ c && c ≤ 'z') || ('A' ≤ c && c ≤ 'Z') || ('0' ≤ c && c ≤ '9') || c = '_')

/-- Digit characters `[0-9]`. -/
def digitChar (c : Char) : Bool := ('0' ≤ c && c ≤ '9')

/-- Python `int()` on a nonempty string of decimal digits. -/
def natOfDigits (ds : List Char) : Nat :=
  ds.foldl (fun a c => a * 10 + (c.toNat - '0'.toNat)) 0

/-- Python `str` of a natural number (canonical decimal). -/
def natToChars (n : Nat) : List Char := Nat.toDigits 10 n

/-- Python `str` of an `int` — what `f'[{childname}]'` interpolates. -/
def intToChars (n : Int) : List Char :=
  if n < 0 then '-' :: natToChars n.natAbs else natToChars n.natAbs

/-- The regex alternative `\[ (-?[0-9]+) \]`: an optional minus, a nonempty
greedy run of digits, and a closing bracket; returns the matched component
and the rest of the string. -/
def parseIndexRaw (l : List Char) : Option (RawComp × List Char) :=
  match l with
  | [] => none
  | c :: rest =>
    if c = '[' then
      let neg : Bool := decide (rest.head? = some '-')
      let rest1 := if neg then rest.tail else rest
      let ds := rest1.takeWhile digitChar
      let rest2 := rest1.dropWhile digitChar
      if ds.isEmpty then none
      else
        match rest2 with
        | [] => none
        | c2 :: rest3 => if c2 = ']' then some (.index neg ds, rest3) else none
    else none

theorem length_dropWhile_le {α : Type} (p : α → Bool) (l : List α) :
    (l.dropWhile p).length ≤ l.length := by
  have h := congrArg List.length (List.takeWhile_append_dropWhile (p := p) (l := l))
  rw [List.length_append] at h
  omega

/-- Decomposition of a string into its optional leading dash (as tested by
`rest.head? = some '-'`) and the remainder. -/
theorem head_dash_decomp (cs : List Char) :
    cs = (if decide (cs.head? = some '-') = true then ['-'] else []) ++
         (if decide (cs.head? = some '-') = true then cs.tail else cs) := by
  cases cs with
  | nil => simp
  | cons x cs' =>
    by_cases hx : x = '-'
    · subst hx; simp
    · simp [hx]

/-- Structural characterization of a successful `parseIndexRaw` match: the
input starts with `[`, an optional `-`, the nonempty digit run, `]`, and the
returned rest. -/
theorem parseIndexRaw_eq {l : List Char} {rc : RawComp} {rest : List Char}
    (h : parseIndexRaw l = some (rc, rest)) :
    ∃ neg ds, rc = .index neg ds ∧ ds ≠ [] ∧ (∀ c ∈ ds, digitChar c) ∧
      l = '[' :: ((if neg then ['-'] else []) ++ (ds ++ ']' :: rest)) := by
  match l with
  | [] => simp [parseIndexRaw] at h
  | c :: cs =>
    unfold parseIndexRaw at h
    dsimp only [] at h
    by_cases hc : c = '['
    · rw [if_pos hc] at h
      subst hc
      set neg : Bool := decide (cs.head? = some '-') with hneg
      set rest1 : List Char := if neg then cs.tail else cs with hrest1
      have hcs : cs = (if neg then ['-'] else []) ++ rest1 := by
        rw [hrest1, hneg]
        exact head_dash_decomp cs
      by_cases hde : (rest1.takeWhile digitChar).isEmpty = true
      · rw [if_pos hde] at h; exact absurd h (by simp)
      · rw [if_neg hde] at h
        match hm : rest1.dropWhile digitChar with
        | [] => rw [hm] at h; exact absurd h (by simp)
        | c2 :: rest3 =>
          rw [hm] at h
          simp only [] at h
          by_cases hc2 : c2 = ']'
          · rw [if_pos hc2] at h
            subst hc2
            have hrc : RawComp.index neg (rest1.takeWhile digitChar) = rc :=
              (Prod.ext_iff.mp (Option.some.inj h)).1
            have hEq : rest3 = rest := (Prod.ext_iff.mp (Option.some.inj h)).2
            subst hEq
            refine ⟨neg, rest1.takeWhile digitChar, hrc.symm, ?_, ?_, ?_⟩
            · intro hnil; rw [hnil] at hde; exact hde rfl
            · intro x hx; exact List.mem_takeWhile_imp hx
            · rw [hcs]
              congr 1
              congr 1
              rw [← hm, List.takeWhile_append_dropWhile]
          · rw [if_neg hc2] at h; exact absurd h (by simp)
    · rw [if_neg hc] at h; exact absurd h (by simp)

theorem parseIndexRaw_length {l : List Char} {rc : RawComp} {rest : List Char}
    (h : parseIndexRaw l = some (rc, rest)) : rest.length < l.length := by
  obtain ⟨neg, ds, -, -, -, hl⟩ := parseIndexRaw_eq h
  subst hl
  simp only [List.length_cons, List.length_append]
  cases neg <;> simp <;> omega

/-- Termination helper: a successful bracketed-index match strictly consumes
input. -/
theorem index_rest_length (cs : List Char)
    (hbr : (((if decide (cs.head? = some '-') = true then cs.tail
        else cs).dropWhile digitChar)).head? = some ']') :
    (((if decide (cs.head? = some '-') = true then cs.tail
        else cs).dropWhile digitChar)).tail.length < (cs.length + 1) := by
  have h1 : (if decide (cs.head? = some '-') = true then cs.tail else cs).length
      ≤ cs.length := by
    split <;> simp [List.length_tail]
  have h2 := length_dropWhile_le digitChar
    (if decide (cs.head? = some '-') = true then cs.tail else cs)
  have h4 : 1 ≤ ((if decide (cs.head? = some '-') = true then cs.tail
      else cs).dropWhile digitChar).length := by
    cases hm : ((if decide (cs.head? = some '-') = true then cs.tail
        else cs).dropWhile digitChar) with
    | nil => rw [hm] at hbr; simp at hbr
    | cons a as => simp
  simp only [List.length_tail]
  omega

/-- The sequential component scan described above.  `first = true` at string
position 0 (where a separator dot cannot match and an identifier needs no
preceding dot); `first = false` after a component, where an identifier can
only follow a matched separator dot. -/
def parseComps : Bool → List Char → Option (List RawComp)
  | _, [] => some []
  | first, c :: cs =>
    if first && identChar c then
      -- the identifier alternative: a greedy nonempty run of `identChar`s
      (parseComps false ((c :: cs).dropWhile identChar)).map
        (RawComp.name ((c :: cs).takeWhile identChar) :: ·)
    else if c = '.' && !first then
      -- the separator-dot alternative followed by a mandatory identifier
      -- (if the dot is last or followed by `.`/`[`, or if no identifier
      -- follows, no alternative matches there and validation rejects)
      if (cs.takeWhile identChar).isEmpty then none
      else (parseComps false (cs.dropWhile identChar)).map
        (RawComp.name (cs.takeWhile identChar) :: ·)
    else if c = '[' then
      -- the `\[ (-?[0-9]+) \]` alternative, written out positionally;
      -- `parseComps_index_eq` below proves it equal to matching on
      -- `parseIndexRaw`
      let rest1 := if decide (cs.head? = some '-') then cs.tail else cs
      if (rest1.takeWhile digitChar).isEmpty then none
      else if (rest1.dropWhile digitChar).head? = some ']' then
        (parseComps false (rest1.dropWhile digitChar).tail).map
          (RawComp.index (decide (cs.head? = some '-')) (rest1.takeWhile digitChar) :: ·)
      else none
    else none
termination_by _ l => l.length
decreasing_by
  · rename_i h
    have hc : identChar c = true := by
      cases hic : identChar c
      · rw [hic] at h; simp at h
      · rfl
    rw [List.dropWhile_cons, if_pos hc]
    have := length_dropWhile_le identChar cs
    simp only [List.length_cons]
    omega
  · have := length_dropWhile_le identChar cs
    simp only [List.length_cons]
    omega
  · rename_i hbr
    exact index_rest_length cs hbr

/-- The inlined index branch of `parseComps` is exactly a match on
`parseIndexRaw`. -/
theorem parseComps_index_eq (first : Bool) (c : Char) (cs : List Char)
    (h1 : ¬ (first && identChar c) = true)
    (h2 : ¬ (decide (c = '.') && !first) = true) :
    parseComps first (c :: cs) =
      match parseIndexRaw (c :: cs) with
      | some (rc, rest) => (parseComps false rest).map (rc :: ·)
      | none => none := by
  conv_lhs => unfold parseComps
  rw [if_neg h1, if_neg h2]
  unfold parseIndexRaw
  dsimp only []
  by_cases hc : c = '['
  · rw [if_pos hc, if_pos hc]
    by_cases hde : ((if decide (cs.head? = some '-') = true then cs.tail
        else cs).takeWhile digitChar).isEmpty = true
    · rw [if_pos hde, if_pos hde]
    · rw [if_neg hde, if_neg hde]
      cases hm : (if decide (cs.head? = some '-') = true then cs.tail
          else cs).dropWhile digitChar with
      | nil => simp
      | cons c2 rest3 =>
        by_cases hc2 : c2 = ']'
        · subst hc2
          simp
        · simp [hc2]
  · rw [if_neg hc, if_neg hc]

/-- `int(match.group(2))` conversion from the raw match to the yielded
component. -/
def toComp : RawComp → PathComp
  | .name s => .name s
  | .index neg ds => .index (if neg then -(natOfDigits ds : Int) else (natOfDigits ds : Int))

/-- `ComposedNode.split_path` with `validate=True`, over a char-list string:
`some components` on success, `none` where the source raises
`ValueError('Invalid path: ...')`. -/
def split_path (l : List Char) : Option (List PathComp) :=
  (parseComps true l).map (List.map toComp)

/-- `ComposedNode._get_child_accessor(childname, myname)`: `f'[{childname}]'`
for an int, otherwise a dot (iff `myname` is nonempty) followed by the name. -/
def get_child_accessor (childname : PathComp) (myname : List Char) : List Char :=
  match childname with
  | .index n => '[' :: (intToChars n ++ [']'])
  | .name s => (if myname.isEmpty then [] else ['.']) ++ s

/-- `ComposedNode.join_path`: left fold of `_get_child_accessor` starting
from the empty string. -/
def join_path (l : List PathComp) : List Char :=
  l.foldl (fun ret comp => ret ++ get_child_accessor comp ret) []

/-- A raw index component is written canonically when its matched text is
exactly what Python's `str()` (and hence `f'[{...}]'` in `join_path`)
produces for its integer value — i.e. no leading zeros and no `-0`.  Name
components are always canonical. -/
def rawCanonical : RawComp → Prop
  | .name _ => True
  | .index neg ds =>
      intToChars (if neg then -(natOfDigits ds : Int) else (natOfDigits ds : Int)) =
        (if neg then ['-'] else []) ++ ds

instance : DecidablePred rawCanonical := by
  intro rc
  cases rc with
  | name s => exact isTrue trivial
  | index neg ds => unfold rawCanonical; infer_instance

theorem join_path_aux (s : List Char) (rl : List RawComp) (ret : List Char)
    (hret : ret ≠ [])
    (hp : parseComps false s = some rl)
    (hcanon : ∀ rc ∈ rl, rawCanonical rc) :
    (rl.map toComp).foldl (fun r comp => r ++ get_child_accessor comp r) ret = ret ++ s := by
  have hie : ret.isEmpty = false := by
    cases ret with
    | nil => exact absurd rfl hret
    | cons a as => rfl
  match s with
  | [] =>
    have : rl = [] := by
      unfold parseComps at hp
      exact (Option.some.inj hp).symm
    subst this
    simp
  | c :: cs =>
    by_cases hdot : (decide (c = '.') && !false) = true
    · unfold parseComps at hp
      rw [if_neg (by simp), if_pos hdot] at hp
      have hc : c = '.' := by simpa using hdot
      subst hc
      by_cases hrun : (cs.takeWhile identChar).isEmpty = true
      · rw [if_pos hrun] at hp; exact absurd hp (by simp)
      · rw [if_neg hrun] at hp
        obtain ⟨rl', hrl', hmap⟩ := Option.map_eq_some'.mp hp
        subst hmap
        have hretne : ret ++ get_child_accessor
            (toComp (RawComp.name (cs.takeWhile identChar))) ret ≠ [] := by
          simp [toComp, get_child_accessor, hie]
        have ih := join_path_aux (cs.dropWhile identChar) rl'
          (ret ++ get_child_accessor (toComp (RawComp.name (cs.takeWhile identChar))) ret)
          hretne hrl'
          (fun rc hrc => hcanon rc (List.mem_cons_of_mem _ hrc))
        simp only [List.map_cons, List.foldl_cons]
        show List.foldl _
          (ret ++ get_child_accessor (toComp (RawComp.name (cs.takeWhile identChar))) ret) _ = _
        rw [ih]
        simp only [toComp, get_child_accessor, hie, Bool.false_eq_true, if_false]
        have hsplit := List.takeWhile_append_dropWhile (p := identChar) (l := cs)
        simp only [List.append_assoc, List.cons_append, List.nil_append]
        rw [hsplit]
    · rw [parseComps_index_eq false c cs (by simp) hdot] at hp
      split at hp
      · rename_i rc rest hpi
        obtain ⟨rl', hrl', hmap⟩ := Option.map_eq_some'.mp hp
        subst hmap
        obtain ⟨neg, ds, hrc, hdsne, hdsdig, hl⟩ := parseIndexRaw_eq hpi
        subst hrc
        have hcanonhead := hcanon (RawComp.index neg ds) (List.mem_cons_self _ _)
        unfold rawCanonical at hcanonhead
        have hretne : ret ++ get_child_accessor (toComp (RawComp.index neg ds)) ret ≠ [] := by
          simp [toComp, get_child_accessor]
        have ih := join_path_aux rest rl'
          (ret ++ get_child_accessor (toComp (RawComp.index neg ds)) ret) hretne hrl'
          (fun rc hrc => hcanon rc (List.mem_cons_of_mem _ hrc))
        simp only [List.map_cons, List.foldl_cons]
        show List.foldl _
          (ret ++ get_child_accessor (toComp (RawComp.index neg ds)) ret) _ = _
        rw [ih]
        simp only [toComp, get_child_accessor]
        rw [hcanonhead, hl]
        cases neg <;> simp
      · exact absurd hp (by simp)
termination_by s.length
decreasing_by
  · simp only [List.length_cons]
    have := length_dropWhile_le identChar cs
    omega
  · have := parseIndexRaw_length hpi
    omega

/-- Round-trip of the whole scan: if the validated regex scan accepts `s` and
every index component of `s` is written canonically, then `join_path`
reproduces `s` exactly. -/
theorem parseComps_roundtrip (s : List Char) (rl : List RawComp)
    (hp : parseComps true s = some rl)
    (hcanon : ∀ rc ∈ rl, rawCanonical rc) :
    join_path (rl.map toComp) = s := by
  match s with
  | [] =>
    have : rl = [] := by unfold parseComps at hp; exact (Option.some.inj hp).symm
    subst this; rfl
  | c :: cs =>
    by_cases hid : (true && identChar c) = true
    · unfold parseComps at hp
      rw [if_pos hid] at hp
      obtain ⟨rl', hrl', hmap⟩ := Option.map_eq_some'.mp hp
      subst hmap
      have hcid : identChar c = true := by simpa using hid
      have hrun : (c :: cs).takeWhile identChar = c :: cs.takeWhile identChar := by
        rw [List.takeWhile_cons, if_pos hcid]
      have hretne : ([] : List Char) ++ get_child_accessor
          (toComp (RawComp.name ((c :: cs).takeWhile identChar))) [] ≠ [] := by
        simp [toComp, get_child_accessor, hrun]
      have ih := join_path_aux ((c :: cs).dropWhile identChar) rl'
        ([] ++ get_child_accessor (toComp (RawComp.name ((c :: cs).takeWhile identChar))) [])
        hretne hrl'
        (fun rc hrc => hcanon rc (List.mem_cons_of_mem _ hrc))
      unfold join_path
      simp only [List.map_cons, List.foldl_cons]
      show List.foldl _
        ([] ++ get_child_accessor (toComp (RawComp.name ((c :: cs).takeWhile identChar))) []) _ = _
      rw [ih]
      simp only [toComp, get_child_accessor, List.isEmpty_nil, if_pos, List.nil_append]
      exact List.takeWhile_append_dropWhile identChar (c :: cs)
    · rw [parseComps_index_eq true c cs hid (by simp)] at hp
      split at hp
      · rename_i rc rest hpi
        obtain ⟨rl', hrl', hmap⟩ := Option.map_eq_some'.mp hp
        subst hmap
        obtain ⟨neg, ds, hrc, hdsne, hdsdig, hl⟩ := parseIndexRaw_eq hpi
        subst hrc
        have hcanonhead := hcanon (RawComp.index neg ds) (List.mem_cons_self _ _)
        unfold rawCanonical at hcanonhead
        have hretne : ([] : List Char) ++ get_child_accessor
            (toComp (RawComp.index neg ds)) [] ≠ [] := by
          simp [toComp, get_child_accessor]
        have ih := join_path_aux rest rl'
          ([] ++ get_child_accessor (toComp (RawComp.index neg ds)) []) hretne hrl'
          (fun rc hrc => hcanon rc (List.mem_cons_of_mem _ hrc))
        unfold join_path
        simp only [List.map_cons, List.foldl_cons]
        show List.foldl _
          ([] ++ get_child_accessor (toComp (RawComp.index neg ds)) []) _ = _
        rw [ih]
        simp only [toComp, get_child_accessor]
        rw [hcanonhead, hl]
        cases neg <;> simp
      · exact absurd hp (by simp)


/-- Claim C5, counterexample: the path string `"[01]"` is accepted by
`split_path` (producing the single component `index 1`), but `join_path`
renders that component canonically as `"[1]"`, so `format(parse(s)) = s`
fails for an accepted `s`. -/
theorem C5_counterexample :
    split_path ['[', '0', '1', ']'] = some [PathComp.index 1] ∧
    join_path [PathComp.index 1] = ['[', '1', ']'] ∧
    (['[', '0', '1', ']'] : List Char) ≠ ['[', '1', ']'] := by
  refine ⟨?_, ?_, by decide⟩
  · simp +decide [split_path, parseComps, identChar, digitChar, toComp, natOfDigits]
  · simp +decide [join_path, get_child_accessor, intToChars, natToChars,
      Nat.toDigits, Nat.toDigitsCore]

/-- Claim C5 (amended): for every path string `s` that `split_path` accepts
without error and in which every bracketed integer index is written
canonically (no leading zeros, no `-0` — i.e. the matched text equals the
decimal rendering of its value), `join_path` applied to the parsed component
sequence returns `s` exactly: names are dot-joined with no leading dot for
the first component and indices are rendered as `[N]` with no preceding
dot. -/
theorem C5_roundtrip_canonical (s : List Char) (rl : List RawComp)
    (hp : parseComps true s = some rl)
    (hcanon : ∀ rc ∈ rl, rawCanonical rc) :
    split_path s = some (rl.map toComp) ∧ join_path (rl.map toComp) = s := by
  constructor
  · unfold split_path
    rw [hp]
    rfl
  · exact parseComps_roundtrip s rl hp hcanon

/-- Claim C5, witness: the round-trip theorem applied to the concrete
accepted path `"a[5].b"`. -/
theorem C5_witness :
    split_path ['a', '[', '5', ']', '.', 'b'] =
      some [PathComp.name ['a'], PathComp.index 5, PathComp.name ['b']] ∧
    join_path [PathComp.name ['a'], PathComp.index 5, PathComp.name ['b']] =
      ['a', '[', '5', ']', '.', 'b'] := by
  have h := C5_roundtrip_canonical ['a', '[', '5', ']', '.', 'b']
    [RawComp.name ['a'], RawComp.index false ['5'], RawComp.name ['b']]
    (by simp +decide [parseComps, identChar, digitChar])
    (by
      intro rc hrc
      fin_cases hrc <;>
        simp +decide [rawCanonical, intToChars, natToChars, natOfDigits,
          Nat.toDigits, Nat.toDigitsCore])
  simpa +decide [toComp, natOfDigits] using h

/-- Claim C6: `split_path` rejects each of the malformed path strings
`"a..b"`, `"a[x]"`, `".a"`, `"a."` and `"a[1"` — in the source a
`ValueError('Invalid path: ...')` is raised (modelled as `none`), because the
regex matches either leave a gap or an unmatched trailing remainder. -/
theorem C6_invalid_paths_rejected :
    split_path ['a', '.', '.', 'b'] = none ∧
    split_path ['a', '[', 'x', ']'] = none ∧
    split_path ['.', 'a'] = none ∧
    split_path ['a', '.'] = none ∧
    split_path ['a', '[', '1'] = none := by
  refine ⟨?_, ?_, ?_, ?_, ?_⟩ <;>
    simp +decide [split_path, parseComps, identChar, digitChar]

/-! ## Node model (awesomeyaml/nodes/node.py, src/yamlfig/nodes/composed.py,
src/yamlfig/nodes/dict.py)

Only the node kinds exercised by the claims are modelled: `ConfigScalar`
leaves (payload modelled as `Int`, which suffices to express Python
truthiness) and `ConfigDict` composed nodes (ordered string-keyed children).
Python object identity (`id()`) is modelled as an explicit `nid` field; the
source's in-place mutation becomes explicit state passing. -/

/-- `ConfigNode.WEAK` -/
def WEAK : Int := -1
/-- `ConfigNode.STANDARD` -/
def STANDARD : Int := 0
/-- `ConfigNode.FORCE` -/
def FORCE : Int := 1

/-- The per-node attributes set by `ConfigNode.__init__` (node.py:128-145):
`_priority`, `_delete`, `_allow_new`, `_implicit_delete`,
`_implicit_allow_new` (each `None` or a value), plus `nid` modelling the
Python object identity `id(self)`. -/
structure Flags where
  nid : Nat := 0
  priority : Option Int := none
  delete : Option Bool := none
  allow_new : Option Bool := none
  implicit_delete : Option Bool := none
  implicit_allow_new : Option Bool := none
deriving DecidableEq, Repr

/-- A config node: `ConfigScalar` (leaf) or `ConfigDict` (`ComposedNode`
with named ordered children, modelled as an association list). -/
inductive Node where
  | scalar (fl : Flags) (v : Int)
  | dict (fl : Flags) (cs : List (String × Node))
deriving Repr

mutual

/-- Decidable equality for nodes (the automatic derivation does not handle
the nested `List (String × Node)` children). -/
def nodeDecEq : (a b : Node) → Decidable (a = b)
  | .scalar fl v, .scalar fl' v' =>
    if h1 : fl = fl' then
      if h2 : v = v' then isTrue (by rw [h1, h2])
      else isFalse (fun h => by cases h; exact h2 rfl)
    else isFalse (fun h => by cases h; exact h1 rfl)
  | .scalar _ _, .dict _ _ => isFalse (fun h => Node.noConfusion h)
  | .dict _ _, .scalar _ _ => isFalse (fun h => Node.noConfusion h)
  | .dict fl cs, .dict fl' cs' =>
    if h1 : fl = fl' then
      match childrenDecEq cs cs' with
      | isTrue h2 => isTrue (by rw [h1, h2])
      | isFalse h2 => isFalse (fun h => by cases h; exact h2 rfl)
    else isFalse (fun h => by cases h; exact h1 rfl)

/-- Decidable equality for children lists. -/
def childrenDecEq : (a b : List (String × Node)) → Decidable (a = b)
  | [], [] => isTrue rfl
  | [], _ :: _ => isFalse (fun h => List.noConfusion h)
  | _ :: _, [] => isFalse (fun h => List.noConfusion h)
  | (k, v) :: r, (k', v') :: r' =>
    if hk : k = k' then
      match nodeDecEq v v' with
      | isTrue hv =>
        match childrenDecEq r r' with
        | isTrue hr => isTrue (by rw [hk, hv, hr])
        | isFalse hr => isFalse (fun h => by
            injection h with h1 h2
            exact hr h2)
      | isFalse hv => isFalse (fun h => by
          injection h with h1 h2
          exact hv (Prod.ext_iff.mp h1).2)
    else isFalse (fun h => by
      injection h with h1 h2
      exact hk (Prod.ext_iff.mp h1).1)

end

instance : DecidableEq Node := nodeDecEq

/-- The flag record of a node. -/
def Node.flags : Node → Flags
  | .scalar fl _ => fl
  | .dict fl _ => fl

/-- Python object identity `id(node)`. -/
def Node.nid (n : Node) : Nat := n.flags.nid

/-- `yamlfigns.is_leaf`: `True` for plain `ConfigNode`s, `False` for
`ComposedNode`s. -/
def is_leaf : Node → Bool
  | .scalar .. => true
  | .dict .. => false

/-- Python truthiness of a node: `bool(int)` for scalars (false iff 0) and
`bool(dict)` for dicts (false iff no children). -/
def truthy : Node → Bool
  | .scalar _ v => v ≠ 0
  | .dict _ cs => !cs.isEmpty

/-- Truthiness of `get_node`'s optional result (`None` is falsy). -/
def truthyOpt : Option Node → Bool
  | none => false
  | some n => truthy n

/-- `ayns.priority` (node.py:155-160): the explicit `_priority`, or the type
default `STANDARD` when unset. -/
def priorityProp (n : Node) : Int := (n.flags.priority).getD STANDARD

/-- `ayns.delete` (node.py:170-177): the explicit `_delete`; else the
inherited `_implicit_delete`; else the type default `False`. -/
def deleteProp (n : Node) : Bool :=
  match n.flags.delete with
  | some b => b
  | none =>
    match n.flags.implicit_delete with
    | some b => b
    | none => false

/-- `ayns.allow_new` exactly as the source executes it (node.py:179-186):
it consults only `_implicit_allow_new` and otherwise returns the default
`True` — the two lines reading the node's own `_allow_new` are commented
out in the source. -/
def allow_newProp (n : Node) : Bool :=
  match n.flags.implicit_allow_new with
  | some b => b
  | none => true

/-- `ayns.has_priority_over(self, other, if_equal=False)` (node.py:229-232). -/
def has_priority_over (a b : Node) (if_equal : Bool) : Bool :=
  if priorityProp a = priorityProp b then if_equal
  else decide (priorityProp a > priorityProp b)

/-- Lookup in the ordered children dict (Python dict access). -/
def getChildList : List (String × Node) → String → Option Node
  | [], _ => none
  | (k, v) :: rest, key => if k = key then some v else getChildList rest key

/-- `yamlfigns.get_child(name, default=None)` (composed.py:143-144). -/
def get_child (n : Node) (key : String) : Option Node :=
  match n with
  | .scalar .. => none
  | .dict _ cs => getChildList cs key

/-- `yamlfigns.has_child(name)` (composed.py:146-147). -/
def has_child (n : Node) (key : String) : Bool := (get_child n key).isSome

/-- Python dict assignment `self._children[name] = value`: replaces the
existing entry in place (keeping its position) or appends a new one. -/
def setEntry : List (String × Node) → String → Node → List (String × Node)
  | [], key, v => [(key, v)]
  | (k, w) :: rest, key, v =>
    if k = key then (key, v) :: rest else (k, w) :: setEntry rest key v

/-- `yamlfigns.set_child(name, value)` (composed.py:123-126); the
`ConfigNode(value)` re-wrap returns an already-constructed node unchanged
(see `configNodeCallOnNode`), so the stored child is `value` itself. -/
def set_child (n : Node) (key : String) (v : Node) : Node :=
  match n with
  | .scalar fl w => .scalar fl w
  | .dict fl cs => .dict fl (setEntry cs key v)

/-- Python `dict.pop(name, None)`: removes the entry if present. -/
def removeEntry : List (String × Node) → String → List (String × Node)
  | [], _ => []
  | (k, w) :: rest, key => if k = key then rest else (k, w) :: removeEntry rest key

/-- `yamlfigns.remove_child(name)` (composed.py:128-130). -/
def remove_child (n : Node) (key : String) : Node :=
  match n with
  | .scalar fl w => .scalar fl w
  | .dict fl cs => .dict fl (removeEntry cs key)

/-- `yamlfigns.get_node(*path)` with the default `incomplete=None`
(composed.py:149-200): walks the components from `self` and returns `None`
as soon as a component is missing or the current node is not composed. -/
def get_node : Node → List String → Option Node
  | n, [] => some n
  | n, k :: rest =>
    match get_child n k with
    | none => none
    | some c => get_node c rest

/-- `yamlfigns.get_first_not_missing_node(*path)` (composed.py:202-212): the
deepest node along the path that exists — `self` when the first component is
already missing. -/
def get_first_not_missing_node : Node → List String → Node
  | n, [] => n
  | n, k :: rest =>
    match get_child n k with
    | none => n
    | some c => get_first_not_missing_node c rest

mutual

/-- `yamlfigns.filter_nodes(condition, prefix)` (composed.py:229-252): a
child is kept iff `condition(child_path, child)` holds and — for composed
children — its own filtered subtree is truthy (nonempty); composed children
are filtered in place (so the kept entry holds the filtered subtree).  The
`to_re_set` branch of the source is unreachable because `filter_nodes`
always returns `self`.  The source returns `self` mutated; here the filtered
node is returned. -/
def filter_nodes (cond : List String → Node → Bool) (pre : List String) :
    Node → Node
  | .scalar fl v => .scalar fl v
  | .dict fl cs => .dict fl (filterChildren cond pre cs)

/-- One loop iteration of `filter_nodes`: the surviving entry (if any) for
one child — `keep` is `condition(child_path, child)`, and-ed for composed
children with the truthiness of the child's own filtered subtree; a removed
child contributes nothing (`to_del` + `remove_child`). -/
def filterEntry (cond : List String → Node → Bool) (pre : List String)
    (name : String) : Node → List (String × Node)
  | .scalar fl v =>
    if cond (pre ++ [name]) (.scalar fl v) then [(name, Node.scalar fl v)] else []
  | .dict fl cs =>
    let possiblyNew := filter_nodes cond (pre ++ [name]) (.dict fl cs)
    if cond (pre ++ [name]) (.dict fl cs) && truthy possiblyNew then
      [(name, possiblyNew)]
    else []

/-- The `for name, child in self.yamlfigns.named_children()` loop of
`filter_nodes`, combined with the deferred `remove_child` calls. -/
def filterChildren (cond : List String → Node → Bool) (pre : List String) :
    List (String × Node) → List (String × Node)
  | [] => []
  | (name, child) :: rest =>
    filterEntry cond pre name child ++ filterChildren cond pre rest

end

/-- The `maybe_keep` closure of `yamlfigns.merge` (composed.py:359-363):
keep a destination node if the source has a truthy node at the same path,
or if the destination node has (strict) priority over the first not-missing
source node along that path. -/
def maybe_keep (other : Node) (path : List String) (node : Node) : Bool :=
  if truthyOpt (get_node other path) then true
  else has_priority_over node (get_first_not_missing_node other path) false

mutual

/-- `ComposedNode.yamlfigns.merge(self, other)` (composed.py:356-392).
`other.premerge(self)` is the identity for the modelled node kinds (the
default `on_premerge` returns `self`), so it is omitted.  When
`other.yamlfigns.delete` holds, the destination is first pruned with
`maybe_keep`; then every child of `other` is merged in.  A scalar `other`
has no `_children`: the caller that reaches this situation catches the
`AttributeError` (see `mergeStep`), so the scalar case here is unreachable
and returns `self`. -/
def merge (self other : Node) : Node :=
  match other with
  | .scalar .. => self
  | .dict _ ocs =>
    let self1 := if deleteProp other then filter_nodes (maybe_keep other) [] self else self
    mergeSteps self1 ocs
termination_by (sizeOf other, 0)

/-- The `for key, value in other._children.items()` loop of `merge`. -/
def mergeSteps (s : Node) : List (String × Node) → Node
  | [] => s
  | (key, value) :: rest => mergeSteps (mergeStep s key value) rest
termination_by l => (sizeOf l, 1)

/-- One iteration of the merge loop (composed.py:367-390).

* no existing child: `set_child(key, value)`;
* both composed: `child.yamlfigns.merge(value)` succeeds (`merge = True`);
  the result is `child` mutated in place, so the slot holds it; if it is
  falsy and does not have priority over `value` the slot is removed;
* composed child, scalar value: `child.yamlfigns.merge(value)` first runs
  the delete-prune against `value` (mutating `child`), then raises
  `AttributeError` on `value._children`, which is caught (`merge` stays
  `False`) and the priority comparison decides between `value` and the
  (pruned) child;
* leaf child: the priority comparison decides; when the incoming winner is
  falsy and carries delete, the slot is removed instead (`!del`). -/
def mergeStep (s : Node) (key : String) (value : Node) : Node :=
  match get_child s key with
  | none => set_child s key value
  | some child =>
    match child, value with
    | .dict cfl ccs, .dict vfl vcs =>
      let pnc := merge (.dict cfl ccs) (.dict vfl vcs)
      if !truthy pnc && !has_priority_over pnc (.dict vfl vcs) false then remove_child s key
      else set_child s key pnc
    | .dict cfl ccs, .scalar vfl vv =>
      let child1 := if deleteProp (.scalar vfl vv) then
          filter_nodes (maybe_keep (.scalar vfl vv)) [] (.dict cfl ccs)
        else .dict cfl ccs
      if has_priority_over (.scalar vfl vv) child1 true then
        if !truthy (Node.scalar vfl vv) && deleteProp (.scalar vfl vv) then remove_child s key
        else set_child s key (.scalar vfl vv)
      else set_child s key child1
    | .scalar cfl cv, _ =>
      if has_priority_over value (.scalar cfl cv) true then
        if !truthy value && deleteProp value then remove_child s key
        else set_child s key value
      else s
termination_by (sizeOf value, 2)

end

/-! ## map_nodes with identity cache (composed.py:254-287) -/

/-- The `cache` dict of `map_nodes`, keyed by `id(child)` (`persistent_id`
is the same value for live objects). -/
abbrev Cache := List (Nat × Node)

/-- Lookup in the identity cache (`id(child) in cache` / `cache[id(child)]`). -/
def cacheLookup : Cache → Nat → Option Node
  | [], _ => none
  | (j, w) :: rest, i => if j = i then some w else cacheLookup rest i

/-- Python dict assignment `cache[persistent_id(child)] = possibly_new_child`:
replace in place or append. -/
def cacheSet : Cache → Nat → Node → Cache
  | [], i, r => [(i, r)]
  | (j, w) :: rest, i, r =>
    if j = i then (i, r) :: rest else (j, w) :: cacheSet rest i r

mutual

/-- `yamlfigns.map_nodes(map_fn, prefix, cache_results=True, cache,
leafs_only)` (composed.py:254-287), on a composed node.  Returns the mapped
node, the final cache, and — as instrumentation for the claims — the log of
`(path, node)` pairs `map_fn` was actually applied to, in application order.
The source mutates `self` in place and returns it (or `map_fn`'s result when
`leafs_only` is false); the log does not influence the computed tree or
cache. -/
def map_nodes (f : List String → Node → Node) (leafsOnly : Bool)
    (pre : List String) (cache : Cache) :
    Node → Node × Cache × List (List String × Node)
  | .scalar fl v => (.scalar fl v, cache, [])
  | .dict fl cs =>
    let r := mapChildren f leafsOnly pre cache cs
    let self1 := Node.dict fl r.1
    if leafsOnly then (self1, r.2.1, r.2.2)
    else (f pre self1, r.2.1, r.2.2 ++ [(pre, self1)])
termination_by t => (sizeOf t, 0)

/-- The body of one iteration of the `map_nodes` children loop, producing
`possibly_new_child` together with the cache state after it and the log of
`map_fn` applications it performed: on a cache hit (`id(child) in cache`)
the cached replacement is reused (no recursion, no application); on a miss,
composed children are recursed into and leaves get `map_fn` applied. -/
def mapChildStep (f : List String → Node → Node) (leafsOnly : Bool)
    (pre : List String) (cache : Cache) (name : String) (child : Node) :
    Node × Cache × List (List String × Node) :=
  match cacheLookup cache child.nid with
  | some r => (r, cache, [])
  | none =>
    match child with
    | .dict dfl dcs => map_nodes f leafsOnly (pre ++ [name]) cache (.dict dfl dcs)
    | .scalar sfl sv =>
      (f (pre ++ [name]) (.scalar sfl sv), cache, [(pre ++ [name], Node.scalar sfl sv)])
termination_by (sizeOf child, 1)

/-- The `for name, child in self.yamlfigns.named_children()` loop of
`map_nodes`: after each child's `mapChildStep`, the result is written into
the cache under `id(child)` (`cache[persistent_id(child)] = ...`, a no-op
rewrite on a hit), and the slot ends up holding `possibly_new_child` (the
source's `to_re_set` + `set_child` replay). -/
def mapChildren (f : List String → Node → Node) (leafsOnly : Bool)
    (pre : List String) (cache : Cache) :
    List (String × Node) → List (String × Node) × Cache × List (List String × Node)
  | [] => ([], cache, [])
  | (name, child) :: rest =>
    let step := mapChildStep f leafsOnly pre cache name child
    let cache2 := cacheSet step.2.1 child.nid step.1
    let rr := mapChildren f leafsOnly pre cache2 rest
    ((name, step.1) :: rr.1, rr.2.1, step.2.2 ++ rr.2.2)
termination_by l => (sizeOf l, 2)

end

/-! ## ConfigDict.merge (src/yamlfig/nodes/dict.py) -/

/-- The class attribute names visible on `ConfigDict` that
`ConfigDict._set` refuses to shadow (`if name in dir(type(self))`,
dict.py:12-13).  Modelled by the methods defined in dict.py together with
the standard `dict` methods; this under-approximates `dir(ConfigDict)` but
contains every name the theorems below touch (in particular `merge`, defined
at dict.py:89). -/
def configDictClassAttrs : List String :=
  ["merge", "clear", "pop", "popitem", "update", "setdefault",
   "keys", "values", "items", "get", "copy", "fromkeys"]

/-- `ConfigDict._set(name, value)` (dict.py:11-16): raises `ValueError` when
`name` would shadow a class method/attribute, otherwise stores the child
(both in `_children` and in the underlying `dict`).  `none` models the
raise, which happens before any mutation for this key. -/
def cdSet (s : Node) (name : String) (v : Node) : Option Node :=
  if name ∈ configDictClassAttrs then none
  else some (set_child s name v)

mutual

/-- `ConfigDict.merge(self, other)` (dict.py:89-104).  Its docstring promises
"The operation is considered atomic, i.e. if at any point during merging an
unhandled exceptions is raised, `self` is unaffected."  The implementation,
however, iterates `other.items()` writing each key directly into `self`.
The model returns the destination state at the moment the call finishes or
raises together with an error flag — on error the mutations already
performed are retained, exactly as in-place mutation would leave them.
A non-dict `other` (no `.items()`) is modelled as an immediate error. -/
def cdMerge (self other : Node) : Node × Bool :=
  match other with
  | .scalar .. => (self, true)
  | .dict _ ocs => cdMergeSteps self ocs

/-- The `for name, value in other.items()` loop of `ConfigDict.merge`:
`if name in self and not self[name].is_leaf: self[name].merge(value)
else: self.node_info.set_child(name, value)`. -/
def cdMergeSteps (s : Node) : List (String × Node) → Node × Bool
  | [] => (s, false)
  | (name, value) :: rest =>
    match get_child s name with
    | some child =>
      if !is_leaf child then
        let r := cdMerge child value
        let s1 := set_child s name r.1
        if r.2 then (s1, true) else cdMergeSteps s1 rest
      else
        match cdSet s name value with
        | none => (s, true)
        | some s1 => cdMergeSteps s1 rest
    | none =>
      match cdSet s name value with
      | none => (s, true)
      | some s1 => cdMergeSteps s1 rest

end

/-! ## Evaluation (node.py:246-253, dict.py:113-114) and construction
(node.py:31-92) -/

/-- What `on_evaluate` returns: either a plain native value or a
`ConfigNode`. -/
inductive EvalResult where
  | native (v : Int)
  | node (n : Node)
deriving Repr

/-- Decidable equality for `EvalResult` (components are decidable). -/
instance : DecidableEq EvalResult := by
  intro a b
  cases a <;> cases b
  case native.native v w =>
    exact if h : v = w then isTrue (by rw [h]) else isFalse (fun hh => by cases hh; exact h rfl)
  case native.node => exact isFalse (fun hh => EvalResult.noConfusion hh)
  case node.native => exact isFalse (fun hh => EvalResult.noConfusion hh)
  case node.node n m =>
    exact if h : n = m then isTrue (by rw [h]) else isFalse (fun hh => by cases hh; exact h rfl)

/-- `_get_value`: for a scalar, the wrapped native value; for `ConfigDict`
(dict.py:113-114) the method returns `self` — the node itself. -/
def get_value : Node → EvalResult
  | .scalar _ v => .native v
  | .dict fl cs => .node (.dict fl cs)

/-- The default `ayns.on_evaluate(path, ctx)` (node.py:252-253): returns
`self.ayns.value`, i.e. `self._get_value()`.  This is also what the
evaluate pass (composed.py:353-354) calls on every node. -/
def on_evaluate (n : Node) : EvalResult := get_value n

/-- `ayns.evaluate_node(path, root)` (node.py:246-250): calls `on_evaluate`
and asserts that the result `is not self` and is not a `ConfigNode`
instance; `none` models the `AssertionError`. -/
def evaluate_node (n : Node) : Option EvalResult :=
  match on_evaluate n with
  | .native v => some (.native v)
  | .node m => if m = n then none else none

/-- The keyword arguments of a `ConfigNode(...)` call: the outer `Option` is
presence in `kwargs`, the inner value is what Python would store (which may
itself be `None`). -/
structure CallKwargs where
  priority : Option (Option Int) := none
  delete : Option (Option Bool) := none
  allow_new : Option (Option Bool) := none
  implicit_delete : Option (Option Bool) := none
  implicit_allow_new : Option (Option Bool) := none
deriving Repr

/-- Replace a node's flag record, keeping its payload (models `setattr` on
the existing instance). -/
def withFlags : Node → Flags → Node
  | .scalar _ v, fl => .scalar fl v
  | .dict _ cs, fl => .dict fl cs

/-- `ConfigNodeMeta.__call__` when the positional value is already a
`ConfigNode` (node.py:49-53): for each name in `_kwargs_to_inherit` —
exactly `['priority', 'implicit_delete', 'implicit_allow_new']`
(node.py:24-28) — present in `kwargs`, `setattr(value, '_'+name, ...)` is
performed on the existing instance, and that same instance is returned
(identity, hence `nid`, preserved; `delete` and `allow_new` keywords are not
consulted on this path). -/
def configNodeCallOnNode (v : Node) (kw : CallKwargs) : Node :=
  let fl := v.flags
  withFlags v { fl with
    priority := kw.priority.getD fl.priority,
    implicit_delete := kw.implicit_delete.getD fl.implicit_delete,
    implicit_allow_new := kw.implicit_allow_new.getD fl.implicit_allow_new }

/-- `ConfigNode.ayns.merge(self, other)` (node.py:255-265), the leaf /
top-level merge: `self.premerge(other)` is a no-op for the modelled kinds;
when `other` is `None` the merge fails (`raise ValueError(... !notnew ...)`,
modelled as `none`) iff `self.ayns.allow_new` is false, otherwise `self` is
returned; when `other` exists the priority comparison picks the winner. -/
def node_merge (self : Node) (other : Option Node) : Option Node :=
  match other with
  | none =>
    if !allow_newProp self then none
    else some self
  | some o =>
    if has_priority_over self o false then some self else some o

/-- The payload (scalar value or children list) of a node; stating that two
nodes share payload and `nid` expresses "same instance, flags aside". -/
def payloadOf : Node → Sum Int (List (String × Node))
  | .scalar _ v => .inl v
  | .dict _ cs => .inr cs

/-- Claim C1 (code bug): `ConfigDict.merge`'s own docstring (dict.py:95-97)
promises atomicity — "if at any point during merging an unhandled
exceptions is raised, `self` is unaffected" — but the implementation mutates
`self` key by key.  Merging `{'a': 1, 'merge': 2}` into an empty destination
first inserts `'a'`, then raises `ValueError` on the key `'merge'` (which
shadows a class method, `ConfigDict._set`, dict.py:12-13), leaving the
destination observably changed from its pre-merge state. -/
theorem C1_merge_not_atomic :
    cdMerge (.dict {} []) (.dict {} [("a", .scalar {} 1), ("merge", .scalar {} 2)]) =
      (.dict {} [("a", .scalar {} 1)], true) ∧
    (Node.dict {} [("a", Node.scalar {} 1)]) ≠ .dict {} [] := by
  refine ⟨rfl, by decide⟩

/-- Claim C4 (code bug): a node constructed with `allow_new=False` and merged
against an absent destination slot (`other is None`, node.py:258-261) does
NOT raise the allow-new violation: `ayns.allow_new` (node.py:179-186) never
reads the node's own `_allow_new` (those lines are commented out in the
source), so the `raise ValueError('... !notnew flag enabled!')` guard —
which sits exactly in the absent-destination branch, as the claim says — is
unreachable through the explicit flag; it fires only via an inherited
`_implicit_allow_new`. -/
theorem C4_allow_new_ignored :
    (Node.scalar { allow_new := some false } 5).flags.allow_new = some false ∧
    node_merge (.scalar { allow_new := some false } 5) none =
      some (.scalar { allow_new := some false } 5) ∧
    node_merge (.scalar { implicit_allow_new := some false } 5) none = none :=
  ⟨rfl, rfl, rfl⟩

/-- Claim C10 (code bug): the default `on_evaluate` of a `ConfigDict`
returns `self.ayns.value`, i.e. `ConfigDict._get_value()` (dict.py:113-114),
which returns `self` — the node itself, a `ConfigNode` — so the
"never a node" invariant asserted in `evaluate_node` (node.py:248-249)
fails on every dict (`AssertionError`, modelled as `none`); the evaluate
pass (composed.py:353-354) calls `on_evaluate` directly and stores the node
as the result. -/
theorem C10_evaluate_returns_node :
    on_evaluate (.dict {} [("a", .scalar {} 1)]) =
      .node (.dict {} [("a", .scalar {} 1)]) ∧
    evaluate_node (.dict {} [("a", .scalar {} 1)]) = none :=
  ⟨rfl, rfl⟩

/-- Claim C8, counterexample: calling the node constructor on an
already-constructed node with `delete=True` does not apply the flag — the
constructor applies only `_kwargs_to_inherit = ['priority',
'implicit_delete', 'implicit_allow_new']` (node.py:24-28, 49-53) — so the
returned instance still carries `_delete = None`, contradicting the claim
that the `delete` flag passed to the call is applied in place. -/
theorem C8_counterexample :
    (configNodeCallOnNode (.scalar { nid := 7 } 1)
        { delete := some (some true) }).flags.delete = none ∧
    configNodeCallOnNode (.scalar { nid := 7 } 1) { delete := some (some true) } =
      .scalar { nid := 7 } 1 :=
  ⟨rfl, rfl⟩

/-- Claim C8 (amended): construction from an already-constructed node is
idempotent — the very same instance is returned (identity and payload
preserved) — but only the kwargs among `priority`, `implicit_delete` and
`implicit_allow_new` are applied onto it in place; `delete` and `allow_new`
arguments are silently not applied on this path. -/
theorem C8_construction_idempotent (v : Node) (kw : CallKwargs) :
    (configNodeCallOnNode v kw).nid = v.nid ∧
    payloadOf (configNodeCallOnNode v kw) = payloadOf v ∧
    (configNodeCallOnNode v kw).flags =
      { v.flags with
        priority := kw.priority.getD v.flags.priority,
        implicit_delete := kw.implicit_delete.getD v.flags.implicit_delete,
        implicit_allow_new := kw.implicit_allow_new.getD v.flags.implicit_allow_new } ∧
    (configNodeCallOnNode v kw).flags.delete = v.flags.delete ∧
    (configNodeCallOnNode v kw).flags.allow_new = v.flags.allow_new := by
  cases v <;>
    simp [configNodeCallOnNode, withFlags, Node.flags, Node.nid, payloadOf]


/-! ## Key-uniqueness infrastructure and lemmas about children updates

Python dict keys are unique; the embedding's association lists satisfy this
invariant, which several lemmas take as a (decidable) hypothesis. -/

/-- Whether an association list has an entry with the given key. -/
def hasKey (cs : List (String × Node)) (k : String) : Bool :=
  cs.any (fun p => p.1 = k)

/-- Pairwise-distinct keys at one level. -/
def keysNodup : List (String × Node) → Bool
  | [] => true
  | (k, _) :: rest => !hasKey rest k && keysNodup rest

theorem getChildList_eq_none_of_not_hasKey (cs : List (String × Node)) (k : String)
    (h : hasKey cs k = false) : getChildList cs k = none := by
  induction cs with
  | nil => rfl
  | cons p rest ih =>
    obtain ⟨pk, pv⟩ := p
    simp only [hasKey, List.any_cons, Bool.or_eq_false_iff] at h
    have hpk : pk ≠ k := by
      intro hh
      rw [hh] at h
      simp at h
    simp only [getChildList, if_neg hpk]
    exact ih (by simpa [hasKey] using h.2)

theorem hasKey_setEntry_ne (cs : List (String × Node)) (k q : String) (v : Node)
    (h : k ≠ q) : hasKey (setEntry cs k v) q = hasKey cs q := by
  induction cs with
  | nil => simp [setEntry, hasKey, h]
  | cons p rest ih =>
    obtain ⟨pk, pv⟩ := p
    by_cases hp : pk = k
    · subst hp
      simp [setEntry, hasKey, h]
    · simp only [setEntry, if_neg hp, hasKey, List.any_cons]
      have := ih
      simp only [hasKey] at this
      rw [this]

theorem hasKey_removeEntry_imp (cs : List (String × Node)) (k q : String)
    (h : hasKey (removeEntry cs k) q = true) : hasKey cs q = true := by
  induction cs with
  | nil => simpa [removeEntry] using h
  | cons p rest ih =>
    obtain ⟨pk, pv⟩ := p
    by_cases hp : pk = k
    · subst hp
      simp only [removeEntry, if_pos rfl] at h
      simp [hasKey, List.any_cons]
      right
      simpa [hasKey] using h
    · simp only [removeEntry, if_neg hp] at h
      simp only [hasKey, List.any_cons] at h ⊢
      rcases Bool.or_eq_true_iff.mp h with h1 | h2
      · exact Bool.or_eq_true_iff.mpr (Or.inl h1)
      · exact Bool.or_eq_true_iff.mpr (Or.inr (ih h2))

theorem keysNodup_setEntry (cs : List (String × Node)) (k : String) (v : Node)
    (h : keysNodup cs = true) : keysNodup (setEntry cs k v) = true := by
  induction cs with
  | nil => simp [setEntry, keysNodup, hasKey]
  | cons p rest ih =>
    obtain ⟨pk, pv⟩ := p
    simp only [keysNodup, Bool.and_eq_true, Bool.not_eq_true'] at h
    by_cases hp : pk = k
    · subst hp
      simp only [setEntry, if_pos rfl, keysNodup, Bool.and_eq_true, Bool.not_eq_true']
      exact h
    · simp only [setEntry, if_neg hp, keysNodup, Bool.and_eq_true, Bool.not_eq_true']
      refine ⟨?_, ih h.2⟩
      rw [hasKey_setEntry_ne rest k pk v (fun hh => hp hh.symm)]
      exact h.1

theorem keysNodup_removeEntry (cs : List (String × Node)) (k : String)
    (h : keysNodup cs = true) : keysNodup (removeEntry cs k) = true := by
  induction cs with
  | nil => simpa [removeEntry] using h
  | cons p rest ih =>
    obtain ⟨pk, pv⟩ := p
    simp only [keysNodup, Bool.and_eq_true, Bool.not_eq_true'] at h
    by_cases hp : pk = k
    · subst hp
      simp only [removeEntry, if_pos rfl]
      exact h.2
    · simp only [removeEntry, if_neg hp, keysNodup, Bool.and_eq_true, Bool.not_eq_true']
      refine ⟨?_, ih h.2⟩
      cases hh : hasKey (removeEntry rest k) pk with
      | false => rfl
      | true =>
        exact absurd (hasKey_removeEntry_imp rest k pk hh) (by rw [h.1]; simp)

theorem getChildList_setEntry_ne (cs : List (String × Node)) (k' k : String)
    (v : Node) (h : k' ≠ k) :
    getChildList (setEntry cs k' v) k = getChildList cs k := by
  induction cs with
  | nil => simp [setEntry, getChildList, h]
  | cons p rest ih =>
    obtain ⟨pk, pv⟩ := p
    by_cases hp : pk = k'
    · subst hp
      simp only [setEntry, if_pos rfl, getChildList, if_neg h]
    · simp only [setEntry, if_neg hp, getChildList]
      by_cases hk : pk = k
      · rw [if_pos hk, if_pos hk]
      · rw [if_neg hk, if_neg hk]
        exact ih

theorem getChildList_setEntry_eq (cs : List (String × Node)) (k : String) (v : Node) :
    getChildList (setEntry cs k v) k = some v := by
  induction cs with
  | nil => simp [setEntry, getChildList]
  | cons p rest ih =>
    obtain ⟨pk, pv⟩ := p
    by_cases hp : pk = k
    · subst hp
      simp [setEntry, getChildList]
    · simp only [setEntry, if_neg hp, getChildList, if_neg hp]
      exact ih

theorem getChildList_removeEntry_ne (cs : List (String × Node)) (k' k : String)
    (h : k' ≠ k) :
    getChildList (removeEntry cs k') k = getChildList cs k := by
  induction cs with
  | nil => rfl
  | cons p rest ih =>
    obtain ⟨pk, pv⟩ := p
    by_cases hp : pk = k'
    · subst hp
      have h1 : removeEntry ((pk, pv) :: rest) pk = rest := by
        simp [removeEntry]
      rw [h1]
      simp [getChildList, h]
    · simp only [removeEntry, if_neg hp, getChildList]
      by_cases hk : pk = k
      · rw [if_pos hk, if_pos hk]
      · rw [if_neg hk, if_neg hk]
        exact ih

theorem getChildList_removeEntry_eq (cs : List (String × Node)) (k : String)
    (h : keysNodup cs = true) :
    getChildList (removeEntry cs k) k = none := by
  induction cs with
  | nil => rfl
  | cons p rest ih =>
    obtain ⟨pk, pv⟩ := p
    simp only [keysNodup, Bool.and_eq_true, Bool.not_eq_true'] at h
    by_cases hp : pk = k
    · subst hp
      simp only [removeEntry, if_pos rfl]
      exact getChildList_eq_none_of_not_hasKey rest pk h.1
    · simp only [removeEntry, if_neg hp, getChildList, if_neg hp]
      exact ih h.2

/-- Key uniqueness at the top level of a node. -/
def nodeKeysNodup : Node → Bool
  | .scalar .. => true
  | .dict _ cs => keysNodup cs

theorem get_child_set_child_ne (s : Node) (k' k : String) (v : Node) (h : k' ≠ k) :
    get_child (set_child s k' v) k = get_child s k := by
  cases s with
  | scalar fl w => rfl
  | dict fl cs => exact getChildList_setEntry_ne cs k' k v h

theorem get_child_set_child_eq (fl : Flags) (cs : List (String × Node))
    (k : String) (v : Node) :
    get_child (set_child (.dict fl cs) k v) k = some v :=
  getChildList_setEntry_eq cs k v

theorem get_child_remove_child_ne (s : Node) (k' k : String) (h : k' ≠ k) :
    get_child (remove_child s k') k = get_child s k := by
  cases s with
  | scalar fl w => rfl
  | dict fl cs => exact getChildList_removeEntry_ne cs k' k h

theorem get_child_remove_child_eq (s : Node) (k : String)
    (h : nodeKeysNodup s = true) :
    get_child (remove_child s k) k = none := by
  cases s with
  | scalar fl w => rfl
  | dict fl cs => exact getChildList_removeEntry_eq cs k (by simpa [nodeKeysNodup] using h)

theorem nodeKeysNodup_set_child (s : Node) (k : String) (v : Node)
    (h : nodeKeysNodup s = true) : nodeKeysNodup (set_child s k v) = true := by
  cases s with
  | scalar fl w => exact h
  | dict fl cs => exact keysNodup_setEntry cs k v (by simpa [nodeKeysNodup] using h)

theorem nodeKeysNodup_remove_child (s : Node) (k : String)
    (h : nodeKeysNodup s = true) : nodeKeysNodup (remove_child s k) = true := by
  cases s with
  | scalar fl w => exact h
  | dict fl cs => exact keysNodup_removeEntry cs k (by simpa [nodeKeysNodup] using h)

/-- A merge-loop iteration for a key different from `k` does not change the
child at `k`. -/
theorem mergeStep_get_child_ne (s : Node) (key : String) (value : Node)
    (k : String) (h : key ≠ k) :
    get_child (mergeStep s key value) k = get_child s k := by
  unfold mergeStep
  cases hg : get_child s key with
  | none => exact get_child_set_child_ne s key k value h
  | some child =>
    cases child <;> cases value <;> dsimp only [] <;> repeat' split
    all_goals first
      | exact get_child_remove_child_ne s key k h
      | exact get_child_set_child_ne s key k _ h
      | rfl

/-- A merge-loop iteration preserves top-level key uniqueness. -/
theorem mergeStep_nodeKeysNodup (s : Node) (key : String) (value : Node)
    (h : nodeKeysNodup s = true) :
    nodeKeysNodup (mergeStep s key value) = true := by
  unfold mergeStep
  cases hg : get_child s key with
  | none => exact nodeKeysNodup_set_child s key value h
  | some child =>
    cases child <;> cases value <;> dsimp only [] <;> repeat' split
    all_goals first
      | exact nodeKeysNodup_remove_child s key h
      | exact nodeKeysNodup_set_child s key _ h
      | exact h

/-- Merge-loop iterations over keys different from `k` do not change the
child at `k`, and preserve key uniqueness. -/
theorem mergeSteps_get_child_notin (l : List (String × Node)) (s : Node)
    (k : String) (h : ∀ p ∈ l, p.1 ≠ k) :
    get_child (mergeSteps s l) k = get_child s k := by
  induction l generalizing s with
  | nil => simp only [mergeSteps]
  | cons p rest ih =>
    obtain ⟨pk, pv⟩ := p
    simp only [mergeSteps]
    rw [ih (mergeStep s pk pv) (fun q hq => h q (List.mem_cons_of_mem _ hq))]
    exact mergeStep_get_child_ne s pk pv k (h (pk, pv) (List.mem_cons_self _ _))

theorem mergeSteps_nodeKeysNodup (l : List (String × Node)) (s : Node)
    (h : nodeKeysNodup s = true) :
    nodeKeysNodup (mergeSteps s l) = true := by
  induction l generalizing s with
  | nil => simpa only [mergeSteps] using h
  | cons p rest ih =>
    obtain ⟨pk, pv⟩ := p
    simp only [mergeSteps]
    exact ih (mergeStep s pk pv) (mergeStep_nodeKeysNodup s pk pv h)

theorem is_leaf_set_child (s : Node) (k : String) (v : Node) :
    is_leaf (set_child s k v) = is_leaf s := by
  cases s <;> rfl

theorem is_leaf_remove_child (s : Node) (k : String) :
    is_leaf (remove_child s k) = is_leaf s := by
  cases s <;> rfl

theorem mergeStep_is_leaf (s : Node) (key : String) (value : Node) :
    is_leaf (mergeStep s key value) = is_leaf s := by
  unfold mergeStep
  cases hg : get_child s key with
  | none => exact is_leaf_set_child s key value
  | some child =>
    cases child <;> cases value <;> dsimp only [] <;> repeat' split
    all_goals first
      | exact is_leaf_remove_child s key
      | exact is_leaf_set_child s key _
      | rfl

theorem mergeSteps_is_leaf (l : List (String × Node)) (s : Node) :
    is_leaf (mergeSteps s l) = is_leaf s := by
  induction l generalizing s with
  | nil => simp only [mergeSteps]
  | cons p rest ih =>
    obtain ⟨pk, pv⟩ := p
    simp only [mergeSteps]
    rw [ih (mergeStep s pk pv)]
    exact mergeStep_is_leaf s pk pv

theorem get_child_set_child_eq' (s : Node) (k : String) (v : Node)
    (h : is_leaf s = false) :
    get_child (set_child s k v) k = some v := by
  cases s with
  | scalar fl w => simp [is_leaf] at h
  | dict fl cs => exact getChildList_setEntry_eq cs k v

theorem mergeSteps_append (s : Node) (l1 l2 : List (String × Node)) :
    mergeSteps s (l1 ++ l2) = mergeSteps (mergeSteps s l1) l2 := by
  induction l1 generalizing s with
  | nil => simp only [List.nil_append, mergeSteps]
  | cons p rest ih =>
    obtain ⟨pk, pv⟩ := p
    simp only [List.cons_append, mergeSteps]
    exact ih (mergeStep s pk pv)

theorem has_priority_over_true_iff (a b : Node) :
    has_priority_over a b true = true ↔ ¬ (priorityProp b > priorityProp a) := by
  unfold has_priority_over
  by_cases h : priorityProp a = priorityProp b
  · rw [if_pos h]
    simp [h]
  · rw [if_neg h]
    constructor
    · intro hh
      have := of_decide_eq_true hh
      omega
    · intro hh
      apply decide_eq_true
      rcases lt_trichotomy (priorityProp a) (priorityProp b) with h1 | h1 | h1
      · exact absurd h1 (by omega)
      · exact absurd h1 h
      · exact h1

/-- Claim C2, counterexample: with equal (default) priorities, merging
destination `{k: 1}` with source `{k: 0}` whose child carries `delete=True`
does not replace the destination's child with the source's child — the slot
is removed outright (composed.py:387-388), so the key is gone, although the
destination's child did not have strictly higher priority (per the claim the
source's child should have won the slot). -/
theorem C2_counterexample :
    merge (.dict {} [("k", .scalar {} 1)])
        (.dict {} [("k", .scalar { delete := some true } 0)]) = .dict {} [] ∧
    get_child (merge (.dict {} [("k", .scalar {} 1)])
        (.dict {} [("k", .scalar { delete := some true } 0)])) "k" = none ∧
    has_priority_over (Node.scalar {} 1) (.scalar { delete := some true } 0) false
      = false := by
  refine ⟨?_, ?_, by decide⟩ <;>
    simp +decide [merge, mergeSteps, mergeStep, deleteProp, get_child, getChildList,
      has_priority_over, priorityProp, truthy, remove_child, removeEntry, set_child,
      setEntry, Node.flags, STANDARD]

/-- Claim C2 (amended): `has_priority_over(a, b, if_equal)` returns true iff
`a.priority > b.priority`, or the two priorities are equal and `if_equal`;
and when both trees hold a leaf child under the same key (and the source
tree itself is not marked delete), merge keeps the destination's child
exactly when it has strictly higher priority; otherwise the source's child
replaces it — except that a falsy source child carrying `delete=true`
removes the slot instead of replacing it (`!del` semantics).  Equal priority
therefore yields the source layer's value whenever the source child survives
the delete rule. -/
theorem C2_priority_decides_leaf_conflicts :
    (∀ (a b : Node) (ifEq : Bool),
      has_priority_over a b ifEq = true ↔
        (priorityProp a > priorityProp b ∨
         (priorityProp a = priorityProp b ∧ ifEq = true))) ∧
    (∀ (dfl sfl : Flags) (dcs l1 l2 : List (String × Node)) (k : String) (c v : Node),
      get_child (.dict dfl dcs) k = some c →
      is_leaf c = true →
      is_leaf v = true →
      (∀ p ∈ l1, p.1 ≠ k) →
      (∀ p ∈ l2, p.1 ≠ k) →
      deleteProp (.dict sfl (l1 ++ (k, v) :: l2)) = false →
      keysNodup dcs = true →
      get_child (merge (.dict dfl dcs) (.dict sfl (l1 ++ (k, v) :: l2))) k =
        (if priorityProp c > priorityProp v then some c
         else if truthy v = false ∧ deleteProp v = true then none
         else some v)) := by
  constructor
  · intro a b ifEq
    unfold has_priority_over
    by_cases h : priorityProp a = priorityProp b
    · rw [if_pos h]
      cases ifEq <;> simp [h]
    · rw [if_neg h]
      constructor
      · intro hh
        exact Or.inl (of_decide_eq_true hh)
      · intro hh
        rcases hh with h1 | ⟨h1, _⟩
        · exact decide_eq_true h1
        · exact absurd h1 h
  · intro dfl sfl dcs l1 l2 k c v hgc hlc hlv hl1 hl2 hdel hnd
    unfold merge
    rw [if_neg (by rw [hdel]; simp)]
    rw [mergeSteps_append]
    have hs1gc : get_child (mergeSteps (.dict dfl dcs) l1) k = some c := by
      rw [mergeSteps_get_child_notin l1 _ k hl1]
      exact hgc
    have hs1nd : nodeKeysNodup (mergeSteps (.dict dfl dcs) l1) = true :=
      mergeSteps_nodeKeysNodup l1 _ (by simpa [nodeKeysNodup] using hnd)
    have hs1leaf : is_leaf (mergeSteps (.dict dfl dcs) l1) = false := by
      rw [mergeSteps_is_leaf]
      rfl
    set s1 := mergeSteps (.dict dfl dcs) l1 with hs1
    simp only [mergeSteps]
    rw [mergeSteps_get_child_notin l2 _ k hl2]
    -- now compute the k-iteration on s1
    obtain ⟨cfl, cv, hc⟩ : ∃ cfl cv, c = Node.scalar cfl cv := by
      cases c with
      | scalar cfl cv => exact ⟨cfl, cv, rfl⟩
      | dict _ _ => simp [is_leaf] at hlc
    subst hc
    unfold mergeStep
    rw [hs1gc]
    dsimp only []
    by_cases hpr : priorityProp (Node.scalar cfl cv) > priorityProp v
    · have hnp : has_priority_over v (Node.scalar cfl cv) true = false := by
        cases hhh : has_priority_over v (Node.scalar cfl cv) true with
        | false => rfl
        | true =>
          exact absurd hpr ((has_priority_over_true_iff v (Node.scalar cfl cv)).mp hhh)
      cases v with
      | scalar vfl vv =>
        rw [hnp]
        simp only [Bool.false_eq_true, if_false]
        rw [if_pos hpr]
        exact hs1gc
      | dict vfl vcs => simp [is_leaf] at hlv
    · have hp : has_priority_over v (Node.scalar cfl cv) true = true :=
        (has_priority_over_true_iff v (Node.scalar cfl cv)).mpr hpr
      cases v with
      | scalar vfl vv =>
        rw [hp]
        simp only [if_true]
        rw [if_neg hpr]
        by_cases hfd : truthy (Node.scalar vfl vv) = false ∧
            deleteProp (Node.scalar vfl vv) = true
        · rw [if_pos hfd]
          have : (!truthy (Node.scalar vfl vv) && deleteProp (Node.scalar vfl vv)) = true := by
            rw [hfd.1, hfd.2]; rfl
          rw [this]
          simp only [if_true]
          exact get_child_remove_child_eq s1 k hs1nd
        · rw [if_neg hfd]
          have : (!truthy (Node.scalar vfl vv) && deleteProp (Node.scalar vfl vv)) = false := by
            cases ht : truthy (Node.scalar vfl vv) with
            | true => simp
            | false =>
              cases hd : deleteProp (Node.scalar vfl vv) with
              | false => simp
              | true => exact absurd ⟨ht, hd⟩ hfd
          rw [this]
          simp only [Bool.false_eq_true, if_false]
          exact get_child_set_child_eq' s1 k _ hs1leaf
      | dict vfl vcs => simp [is_leaf] at hlv

/-- Claim C2, witness: the amended theorem applied concretely — equal
priorities, destination `{k: 1}`, source `{k: 2}` (no delete): the source's
value wins the slot. -/
theorem C2_witness :
    get_child (merge (.dict {} [("k", .scalar {} 1)])
        (.dict {} [("k", .scalar {} 2)])) "k" = some (.scalar {} 2) := by
  have h := C2_priority_decides_leaf_conflicts.2 {} {} [("k", .scalar {} 1)] [] []
    "k" (.scalar {} 1) (.scalar {} 2)
    (by simp [get_child, getChildList]) rfl rfl
    (by intro p hp; simp at hp) (by intro p hp; simp at hp)
    (by rfl) (by rfl)
  simpa +decide [priorityProp, truthy, deleteProp, Node.flags, STANDARD] using h

mutual

/-- Key uniqueness at every level of a tree (Python dicts cannot hold
duplicate keys). -/
def nodupTree : Node → Bool
  | .scalar .. => true
  | .dict _ cs => keysNodup cs && childrenNodup cs

/-- `nodupTree` for every child of a children list. -/
def childrenNodup : List (String × Node) → Bool
  | [] => true
  | (_, c) :: rest => nodupTree c && childrenNodup rest

end

theorem nodupTree_child (cs : List (String × Node)) (k : String) (c : Node)
    (hget : getChildList cs k = some c) (hnd : childrenNodup cs = true) :
    nodupTree c = true := by
  induction cs with
  | nil => simp [getChildList] at hget
  | cons p rest ih =>
    obtain ⟨pk, pv⟩ := p
    simp only [childrenNodup, Bool.and_eq_true] at hnd
    by_cases hp : pk = k
    · simp only [getChildList, if_pos hp] at hget
      rw [← Option.some.inj hget]
      exact hnd.1
    · simp only [getChildList, if_neg hp] at hget
      exact ih hget hnd.2

/-- The surviving entry for one child is either dropped or keeps its name. -/
theorem filterEntry_shape (cond : List String → Node → Bool) (pre : List String)
    (name : String) (c : Node) :
    filterEntry cond pre name c = [] ∨
      ∃ x, filterEntry cond pre name c = [(name, x)] := by
  cases c with
  | scalar fl v =>
    unfold filterEntry
    split
    · exact Or.inr ⟨_, rfl⟩
    · exact Or.inl rfl
  | dict fl cs =>
    unfold filterEntry
    dsimp only []
    split
    · exact Or.inr ⟨_, rfl⟩
    · exact Or.inl rfl

theorem hasKey_filterChildren_imp (cond : List String → Node → Bool)
    (pre : List String) (cs : List (String × Node)) (q : String)
    (h : hasKey (filterChildren cond pre cs) q = true) : hasKey cs q = true := by
  induction cs with
  | nil => simpa [filterChildren] using h
  | cons p rest ih =>
    obtain ⟨pk, pv⟩ := p
    simp only [filterChildren] at h
    rw [show hasKey (filterEntry cond pre pk pv ++ filterChildren cond pre rest) q =
        (hasKey (filterEntry cond pre pk pv) q || hasKey (filterChildren cond pre rest) q)
      from by simp [hasKey, List.any_append]] at h
    simp only [hasKey, List.any_cons]
    rcases Bool.or_eq_true_iff.mp h with h1 | h2
    · apply Bool.or_eq_true_iff.mpr
      left
      rcases filterEntry_shape cond pre pk pv with hsh | ⟨x, hsh⟩
      · rw [hsh] at h1
        simp [hasKey] at h1
      · rw [hsh] at h1
        simpa [hasKey] using h1
    · exact Bool.or_eq_true_iff.mpr (Or.inr (ih h2))

/-- The `keep` flag computed by the filter loop for one child. -/
def keepChild (cond : List String → Node → Bool) (pre : List String)
    (name : String) (c : Node) : Bool :=
  match c with
  | .scalar fl v => cond (pre ++ [name]) (.scalar fl v)
  | .dict fl cs =>
    cond (pre ++ [name]) (.dict fl cs) &&
      truthy (filter_nodes cond (pre ++ [name]) (.dict fl cs))

/-- What a kept slot holds after the filter loop: composed children are
filtered in place, leaves are unchanged. -/
def filteredChild (cond : List String → Node → Bool) (pre : List String)
    (name : String) (c : Node) : Node :=
  match c with
  | .scalar fl v => .scalar fl v
  | .dict fl cs => filter_nodes cond (pre ++ [name]) (.dict fl cs)

theorem filterEntry_eq (cond : List String → Node → Bool) (pre : List String)
    (name : String) (c : Node) :
    filterEntry cond pre name c =
      if keepChild cond pre name c then [(name, filteredChild cond pre name c)]
      else [] := by
  cases c with
  | scalar fl v => simp only [filterEntry, keepChild, filteredChild]
  | dict fl cs => simp only [filterEntry, keepChild, filteredChild]

theorem getChildList_append (a b : List (String × Node)) (k : String) :
    getChildList (a ++ b) k =
      match getChildList a k with
      | some c => some c
      | none => getChildList b k := by
  induction a with
  | nil => rfl
  | cons p rest ih =>
    obtain ⟨pk, pv⟩ := p
    by_cases hp : pk = k
    · simp [getChildList, hp]
    · simp only [List.cons_append, getChildList, if_neg hp]
      exact ih

/-- Lookup through the filter loop: the entry for key `k` survives exactly
when its `keep` flag holds, and then holds the (possibly filtered) child. -/
theorem getChildList_filterChildren (cond : List String → Node → Bool)
    (pre : List String) (cs : List (String × Node)) (k : String) (c : Node)
    (hnd : keysNodup cs = true) (hget : getChildList cs k = some c) :
    getChildList (filterChildren cond pre cs) k =
      if keepChild cond pre k c then some (filteredChild cond pre k c) else none := by
  induction cs with
  | nil => simp [getChildList] at hget
  | cons p rest ih =>
    obtain ⟨pk, pv⟩ := p
    simp only [keysNodup, Bool.and_eq_true, Bool.not_eq_true'] at hnd
    simp only [filterChildren]
    rw [getChildList_append]
    by_cases hp : pk = k
    · subst hp
      have hpv : pv = c := by
        simpa [getChildList] using hget
      subst hpv
      rw [filterEntry_eq]
      by_cases hkeep : keepChild cond pre pk pv = true
      · rw [if_pos hkeep, if_pos hkeep]
        simp [getChildList]
      · rw [if_neg hkeep, if_neg (by simpa using hkeep)]
        dsimp only [getChildList]
        cases hh : hasKey (filterChildren cond pre rest) pk with
        | false => exact getChildList_eq_none_of_not_hasKey _ pk hh
        | true =>
          exact absurd (hasKey_filterChildren_imp cond pre rest pk hh)
            (by rw [hnd.1]; simp)
    · simp only [getChildList, if_neg hp] at hget
      rcases filterEntry_shape cond pre pk pv with hsh | ⟨x, hsh⟩
      · rw [hsh]
        dsimp only [getChildList]
        exact ih hnd.2 hget
      · rw [hsh]
        simp only [getChildList, if_neg hp]
        exact ih hnd.2 hget

/-- A destination node at a nonempty path whose `condition` is false is
absent from the filtered tree (either it was removed itself, or one of its
ancestors was). -/
theorem filter_nodes_get_node_none (cond : List String → Node → Bool)
    (p : List String) (t : Node) (pre : List String) (n : Node)
    (hnd : nodupTree t = true)
    (hget : get_node t p = some n)
    (hp : p ≠ [])
    (hcond : cond (pre ++ p) n = false) :
    get_node (filter_nodes cond pre t) p = none := by
  induction p generalizing t pre with
  | nil => exact absurd rfl hp
  | cons k rest ih =>
    cases t with
    | scalar fl v => simp [get_node, get_child] at hget
    | dict fl cs =>
      simp only [nodupTree, Bool.and_eq_true] at hnd
      simp only [get_node, get_child] at hget
      cases hgc : getChildList cs k with
      | none => rw [hgc] at hget; simp at hget
      | some c =>
        rw [hgc] at hget
        dsimp only [] at hget
        have hcnd : nodupTree c = true := nodupTree_child cs k c hgc hnd.2
        rw [show filter_nodes cond pre (.dict fl cs) = .dict fl (filterChildren cond pre cs)
          from by simp only [filter_nodes]]
        simp only [get_node, get_child]
        rw [getChildList_filterChildren cond pre cs k c hnd.1 hgc]
        cases rest with
        | nil =>
          simp only [get_node, Option.some.injEq] at hget
          subst hget
          have hkeep : keepChild cond pre k c = false := by
            cases c with
            | scalar cfl cv => simpa [keepChild] using hcond
            | dict cfl ccs =>
              simp only [keepChild]
              rw [show cond (pre ++ [k]) (.dict cfl ccs) = false from hcond]
              rfl
          rw [hkeep]
          rfl
        | cons r rs =>
          cases c with
          | scalar cfl cv => simp [get_node, get_child] at hget
          | dict cfl ccs =>
            by_cases hkeep : keepChild cond pre k (.dict cfl ccs) = true
            · rw [if_pos hkeep]
              dsimp only [filteredChild]
              exact ih (.dict cfl ccs) (pre ++ [k]) hcnd hget (by simp)
                (by rw [← List.append_cons]; exact hcond)
            · rw [if_neg hkeep]

/-- Claim C3: when the source node's delete flag is true, merge first prunes
the destination with `maybe_keep` (composed.py:358-365): every node in the
destination at a nonempty path that is not present in the source and that
does not have strictly higher priority than the deepest existing node along
that path in the source (`get_first_not_missing_node`) is removed before
insertion proceeds; and concretely, merging base `{a: {b: 1, c: 2}}` with
override `{a: !del {b: 10}}` yields `{a: {b: 10}}` (the `!del` kwargs
propagate to the override's children at construction, so its `b` also
carries `delete=True`). -/
theorem C3_delete_prunes_non_source_paths :
    (∀ (dest src : Node) (p : List String) (n : Node),
      deleteProp src = true →
      nodupTree dest = true →
      get_node dest p = some n →
      p ≠ [] →
      get_node src p = none →
      has_priority_over n (get_first_not_missing_node src p) false = false →
      get_node (filter_nodes (maybe_keep src) [] dest) p = none) ∧
    merge (.dict {} [("a", .dict {} [("b", .scalar {} 1), ("c", .scalar {} 2)])])
        (.dict {} [("a", .dict { delete := some true }
          [("b", .scalar { delete := some true } 10)])]) =
      .dict {} [("a", .dict {} [("b", .scalar { delete := some true } 10)])] := by
  constructor
  · intro dest src p n hdel hnd hget hp hpr
    intro hmiss
    apply filter_nodes_get_node_none (maybe_keep src) p dest [] n hnd hget hp
    rw [List.nil_append]
    unfold maybe_keep
    rw [hpr]
    simp only [truthyOpt, Bool.false_eq_true, if_false]
    exact hmiss
  · simp +decide [merge, mergeSteps, mergeStep, deleteProp, get_child, getChildList,
      has_priority_over, priorityProp, truthy, truthyOpt, remove_child, removeEntry,
      set_child, setEntry, filter_nodes, filterChildren, filterEntry, maybe_keep,
      get_node, get_first_not_missing_node, Node.flags, STANDARD]

/-- Claim C3, witness: the prune statement applied concretely to the inner
merge of the example — destination `{b: 1, c: 2}`, source `!del {b: 10}`,
path `["c"]` (absent from the source, equal priority): `c` is pruned. -/
theorem C3_witness :
    get_node (filter_nodes (maybe_keep (.dict { delete := some true }
        [("b", .scalar { delete := some true } 10)])) []
      (.dict {} [("b", .scalar {} 1), ("c", .scalar {} 2)])) ["c"] = none :=
  C3_delete_prunes_non_source_paths.1
    (.dict {} [("b", .scalar {} 1), ("c", .scalar {} 2)])
    (.dict { delete := some true } [("b", .scalar { delete := some true } 10)])
    ["c"] (.scalar {} 2)
    rfl (by decide) rfl (by decide) rfl (by decide)

/-- Claim C7, counterexample: with a predicate that keeps exactly the
grandchild path `["child", "g"]`, `filter_nodes` removes the composed child
`"child"` entirely — the code computes `keep = condition(child) AND
subtree-survives` (composed.py:236-240) — although per the claim the child
must be kept, since its descendant `g` satisfies the predicate and survives
the child's own filtering (the child's filtered subtree is truthy). -/
theorem C7_counterexample :
    filter_nodes (fun p _ => decide (p = ["child", "g"])) []
        (.dict {} [("child", .dict {} [("g", .scalar {} 1)])]) = .dict {} [] ∧
    (decide ((["child", "g"] : List String) = ["child", "g"]) = true) ∧
    truthy (filter_nodes (fun p _ => decide (p = ["child", "g"])) ["child"]
        (.dict {} [("g", .scalar {} 1)])) = true := by
  refine ⟨?_, by decide, ?_⟩ <;>
    simp +decide [filter_nodes, filterChildren, filterEntry, truthy]

/-- Claim C7 (amended): for every composed node with unique keys and every
predicate, `filter_nodes` keeps a leaf child exactly when the predicate
accepts it; it keeps a composed child exactly when the predicate accepts it
AND the child's own filtered subtree is truthy (nonempty) — not when merely
one of the two holds — and a kept composed slot holds the filtered
subtree. -/
theorem C7_filter_keep_rule (cond : List String → Node → Bool) (fl : Flags)
    (cs : List (String × Node)) (pre : List String) (k : String) (c : Node)
    (hnd : keysNodup cs = true) (hget : getChildList cs k = some c) :
    get_child (filter_nodes cond pre (.dict fl cs)) k =
      (match c with
       | .scalar _ _ => if cond (pre ++ [k]) c then some c else none
       | .dict _ _ =>
         if cond (pre ++ [k]) c && truthy (filter_nodes cond (pre ++ [k]) c) then
           some (filter_nodes cond (pre ++ [k]) c)
         else none) := by
  rw [show filter_nodes cond pre (.dict fl cs) = .dict fl (filterChildren cond pre cs)
    from by simp only [filter_nodes]]
  show getChildList (filterChildren cond pre cs) k = _
  rw [getChildList_filterChildren cond pre cs k c hnd hget]
  cases c with
  | scalar cfl cv => simp only [keepChild, filteredChild]
  | dict cfl ccs => simp only [keepChild, filteredChild]

/-- Claim C7, witness: the keep rule applied concretely — a leaf child kept
by the predicate survives unchanged. -/
theorem C7_witness :
    get_child (filter_nodes (fun p _ => decide (p = ["a"])) []
        (.dict {} [("a", .scalar {} 1)])) "a" = some (.scalar {} 1) := by
  have h := C7_filter_keep_rule (fun p _ => decide (p = ["a"])) {}
    [("a", .scalar {} 1)] [] "a" (.scalar {} 1) (by decide) rfl
  simpa using h

/-! ## Identity bookkeeping for map_nodes -/

mutual

/-- The `id()`s of all strict subtrees of a node. -/
def strictSubNids : Node → List Nat
  | .scalar .. => []
  | .dict _ cs => childSubNids cs

/-- The `id()`s of the children of a children list, together with all their
strict subtrees. -/
def childSubNids : List (String × Node) → List Nat
  | [] => []
  | (_, c) :: rest => (c.nid :: strictSubNids c) ++ childSubNids rest

end

mutual

/-- Faithfulness of the `nid` field to Python object identity: no node's id
recurs among its descendants (a live object can never be its own transitive
child — the tree must never become cyclic). -/
def nidFresh : Node → Bool
  | .scalar .. => true
  | .dict fl cs => !((childSubNids cs).contains fl.nid) && nidFreshChildren cs

/-- `nidFresh` for every child of a children list. -/
def nidFreshChildren : List (String × Node) → Bool
  | [] => true
  | (_, c) :: rest => nidFresh c && nidFreshChildren rest

end

theorem cacheLookup_cacheSet (c : Cache) (i : Nat) (r : Node) (j : Nat) :
    cacheLookup (cacheSet c i r) j = if j = i then some r else cacheLookup c j := by
  induction c with
  | nil =>
    simp only [cacheSet, cacheLookup]
    by_cases hj : j = i
    · subst hj; simp
    · rw [if_neg hj, if_neg (fun hh => hj hh.symm)]
  | cons p rest ih =>
    obtain ⟨pk, pv⟩ := p
    by_cases hp : pk = i
    · subst hp
      simp only [cacheSet, if_pos rfl, cacheLookup]
      by_cases hj : j = pk
      · subst hj; simp
      · rw [if_neg (fun hh => hj hh.symm), if_neg hj, if_neg (fun hh => hj hh.symm)]
    · simp only [cacheSet, if_neg hp, cacheLookup]
      by_cases hj : pk = j
      · subst hj
        rw [if_pos rfl, if_neg (fun hh => hp hh), if_pos rfl]
      · rw [if_neg hj, ih]
        by_cases hji : j = i
        · rw [if_pos hji, if_pos hji]
        · rw [if_neg hji, if_neg hji, if_neg hj]

theorem cacheSet_mono (c : Cache) (i : Nat) (r : Node) (j : Nat)
    (h : cacheLookup c j ≠ none) : cacheLookup (cacheSet c i r) j ≠ none := by
  rw [cacheLookup_cacheSet]
  by_cases hj : j = i
  · rw [if_pos hj]; simp
  · rw [if_neg hj]; exact h

theorem cacheSet_none (c : Cache) (i : Nat) (r : Node) (j : Nat)
    (h : cacheLookup (cacheSet c i r) j = none) : cacheLookup c j = none := by
  rw [cacheLookup_cacheSet] at h
  by_cases hj : j = i
  · rw [if_pos hj] at h; simp at h
  · rwa [if_neg hj] at h

theorem cacheSet_self_ne_none (c : Cache) (i : Nat) (r : Node) :
    cacheLookup (cacheSet c i r) i ≠ none := by
  rw [cacheLookup_cacheSet, if_pos rfl]
  simp


mutual

/-- Cache/log invariants of the `map_nodes` traversal on one node: (1) cache
entries never disappear; (2) new cache keys come from the node's strict
subtrees; (3) under id-faithfulness (`nidFresh`) and freshness of the node's
own id, the application log hits each id at most once, every logged id was
uncached on entry, and every logged id ends up cached — except possibly the
node's own (which the caller's loop caches). -/
theorem map_nodes_inv (f : List String → Node → Node) (lo : Bool)
    (pre : List String) (c0 : Cache) (t : Node) :
    (∀ i, cacheLookup c0 i ≠ none →
      cacheLookup (map_nodes f lo pre c0 t).2.1 i ≠ none) ∧
    (∀ i, cacheLookup (map_nodes f lo pre c0 t).2.1 i ≠ none →
      cacheLookup c0 i ≠ none ∨ i ∈ strictSubNids t) ∧
    (nidFresh t = true → cacheLookup c0 t.nid = none →
      ((map_nodes f lo pre c0 t).2.2.map (fun q => q.2.nid)).Nodup ∧
      (∀ q ∈ (map_nodes f lo pre c0 t).2.2, cacheLookup c0 q.2.nid = none) ∧
      (∀ q ∈ (map_nodes f lo pre c0 t).2.2,
        cacheLookup (map_nodes f lo pre c0 t).2.1 q.2.nid ≠ none ∨ q.2.nid = t.nid)) := by
  cases t with
  | scalar fl v =>
    have hEq : map_nodes f lo pre c0 (.scalar fl v) = (.scalar fl v, c0, []) := by
      simp [map_nodes]
    rw [hEq]
    exact ⟨fun i h => h, fun i h => Or.inl h,
      fun _ _ => ⟨by simp, by simp, by simp⟩⟩
  | dict fl cs =>
    have hc := mapChildren_inv f lo pre c0 cs
    have htnid : (Node.dict fl cs).nid = fl.nid := rfl
    cases lo with
    | true =>
      have hEq : map_nodes f true pre c0 (.dict fl cs) =
          (Node.dict fl (mapChildren f true pre c0 cs).1,
           (mapChildren f true pre c0 cs).2.1,
           (mapChildren f true pre c0 cs).2.2) := by
        simp [map_nodes]
      rw [hEq]
      refine ⟨hc.1, ?_, ?_⟩
      · intro i h
        exact (hc.2.1 i h).imp id (fun hh => by simpa [strictSubNids] using hh)
      · intro hfr hf0
        simp only [nidFresh, Bool.and_eq_true, Bool.not_eq_true'] at hfr
        have hn3 := hc.2.2 hfr.2
        exact ⟨hn3.1, hn3.2.1, fun q hq => Or.inl (hn3.2.2 q hq)⟩
    | false =>
      have hEq : map_nodes f false pre c0 (.dict fl cs) =
          (f pre (Node.dict fl (mapChildren f false pre c0 cs).1),
           (mapChildren f false pre c0 cs).2.1,
           (mapChildren f false pre c0 cs).2.2 ++
             [(pre, Node.dict fl (mapChildren f false pre c0 cs).1)]) := by
        simp [map_nodes]
      rw [hEq]
      refine ⟨hc.1, ?_, ?_⟩
      · intro i h
        exact (hc.2.1 i h).imp id (fun hh => by simpa [strictSubNids] using hh)
      · intro hfr hf0
        simp only [nidFresh, Bool.and_eq_true, Bool.not_eq_true'] at hfr
        have hn3 := hc.2.2 hfr.2
        have hselfnid : (Node.dict fl (mapChildren f false pre c0 cs).1).nid = fl.nid := rfl
        rw [htnid] at hf0
        refine ⟨?_, ?_, ?_⟩
        · rw [List.map_append]
          apply List.Nodup.append hn3.1 (by simp)
          intro x hx hx1
          simp only [List.map_cons, List.map_nil, List.mem_singleton, hselfnid] at hx1
          subst hx1
          obtain ⟨q, hq, hqn⟩ := List.mem_map.mp hx
          have hcached := hn3.2.2 q hq
          rcases hc.2.1 q.2.nid hcached with h1 | h1
          · rw [hqn] at h1; exact h1 hf0
          · rw [hqn] at h1
            have hmem : (childSubNids cs).contains fl.nid = true :=
              List.elem_eq_true_of_mem h1
            rw [hfr.1] at hmem
            exact Bool.noConfusion hmem
        · intro q hq
          rcases List.mem_append.mp hq with h1 | h1
          · exact hn3.2.1 q h1
          · simp only [List.mem_singleton] at h1
            subst h1
            simpa [hselfnid] using hf0
        · intro q hq
          rcases List.mem_append.mp hq with h1 | h1
          · exact Or.inl (hn3.2.2 q h1)
          · simp only [List.mem_singleton] at h1
            subst h1
            exact Or.inr (by simp [hselfnid, htnid])
termination_by (sizeOf t, 0)

/-- Cache/log invariants of one children-loop iteration body (see
`map_nodes_inv`): on a hit nothing is applied; on a miss the applied ids are
at most the child's own and those of its strict subtrees. -/
theorem mapChildStep_inv (f : List String → Node → Node) (lo : Bool)
    (pre : List String) (c0 : Cache) (name : String) (child : Node) :
    (∀ i, cacheLookup c0 i ≠ none →
      cacheLookup (mapChildStep f lo pre c0 name child).2.1 i ≠ none) ∧
    (∀ i, cacheLookup (mapChildStep f lo pre c0 name child).2.1 i ≠ none →
      cacheLookup c0 i ≠ none ∨ i ∈ strictSubNids child) ∧
    (nidFresh child = true →
      (((mapChildStep f lo pre c0 name child).2.2).map (fun q => q.2.nid)).Nodup ∧
      (∀ q ∈ (mapChildStep f lo pre c0 name child).2.2,
        cacheLookup c0 q.2.nid = none) ∧
      (∀ q ∈ (mapChildStep f lo pre c0 name child).2.2,
        cacheLookup (mapChildStep f lo pre c0 name child).2.1 q.2.nid ≠ none ∨
          q.2.nid = child.nid)) := by
  cases child with
  | scalar sfl sv =>
    cases hl : cacheLookup c0 (Node.scalar sfl sv).nid with
    | some r =>
      have hEq : mapChildStep f lo pre c0 name (.scalar sfl sv) = (r, c0, []) := by
        simp [mapChildStep, hl]
      rw [hEq]
      exact ⟨fun i h => h, fun i h => Or.inl h, fun _ => ⟨by simp, by simp, by simp⟩⟩
    | none =>
      have hEq : mapChildStep f lo pre c0 name (.scalar sfl sv) =
          (f (pre ++ [name]) (.scalar sfl sv), c0,
           [(pre ++ [name], Node.scalar sfl sv)]) := by
        simp [mapChildStep, hl]
      rw [hEq]
      refine ⟨fun i h => h, fun i h => Or.inl h, fun _ => ⟨by simp, ?_, ?_⟩⟩
      · intro q hq
        simp only [List.mem_singleton] at hq
        subst hq
        exact hl
      · intro q hq
        simp only [List.mem_singleton] at hq
        subst hq
        exact Or.inr rfl
  | dict dfl dcs =>
    cases hl : cacheLookup c0 (Node.dict dfl dcs).nid with
    | some r =>
      have hEq : mapChildStep f lo pre c0 name (.dict dfl dcs) = (r, c0, []) := by
        simp [mapChildStep, hl]
      rw [hEq]
      exact ⟨fun i h => h, fun i h => Or.inl h, fun _ => ⟨by simp, by simp, by simp⟩⟩
    | none =>
      have hEq : mapChildStep f lo pre c0 name (.dict dfl dcs) =
          map_nodes f lo (pre ++ [name]) c0 (.dict dfl dcs) := by
        simp [mapChildStep, hl]
      rw [hEq]
      have hm := map_nodes_inv f lo (pre ++ [name]) c0 (.dict dfl dcs)
      exact ⟨hm.1, hm.2.1, fun hfr => hm.2.2 hfr hl⟩
termination_by (sizeOf child, 1)

/-- Cache/log invariants of the whole children loop (see `map_nodes_inv`);
here every logged id ends up cached, because the loop writes each processed
child into the cache. -/
theorem mapChildren_inv (f : List String → Node → Node) (lo : Bool)
    (pre : List String) (c0 : Cache) (cs : List (String × Node)) :
    (∀ i, cacheLookup c0 i ≠ none →
      cacheLookup (mapChildren f lo pre c0 cs).2.1 i ≠ none) ∧
    (∀ i, cacheLookup (mapChildren f lo pre c0 cs).2.1 i ≠ none →
      cacheLookup c0 i ≠ none ∨ i ∈ childSubNids cs) ∧
    (nidFreshChildren cs = true →
      ((mapChildren f lo pre c0 cs).2.2.map (fun q => q.2.nid)).Nodup ∧
      (∀ q ∈ (mapChildren f lo pre c0 cs).2.2, cacheLookup c0 q.2.nid = none) ∧
      (∀ q ∈ (mapChildren f lo pre c0 cs).2.2,
        cacheLookup (mapChildren f lo pre c0 cs).2.1 q.2.nid ≠ none)) := by
  cases cs with
  | nil =>
    have hEq : mapChildren f lo pre c0 [] = ([], c0, []) := by
      simp [mapChildren]
    rw [hEq]
    exact ⟨fun i h => h, fun i h => Or.inl h, fun _ => ⟨by simp, by simp, by simp⟩⟩
  | cons p rest =>
    obtain ⟨name, child⟩ := p
    have hstep := mapChildStep_inv f lo pre c0 name child
    have hrest := mapChildren_inv f lo pre
      (cacheSet (mapChildStep f lo pre c0 name child).2.1 child.nid
        (mapChildStep f lo pre c0 name child).1) rest
    have hEq : mapChildren f lo pre c0 ((name, child) :: rest) =
        ((name, (mapChildStep f lo pre c0 name child).1) ::
           (mapChildren f lo pre
             (cacheSet (mapChildStep f lo pre c0 name child).2.1 child.nid
               (mapChildStep f lo pre c0 name child).1) rest).1,
         (mapChildren f lo pre
             (cacheSet (mapChildStep f lo pre c0 name child).2.1 child.nid
               (mapChildStep f lo pre c0 name child).1) rest).2.1,
         (mapChildStep f lo pre c0 name child).2.2 ++
           (mapChildren f lo pre
             (cacheSet (mapChildStep f lo pre c0 name child).2.1 child.nid
               (mapChildStep f lo pre c0 name child).1) rest).2.2) := by
      simp [mapChildren]
    rw [hEq]
    refine ⟨?_, ?_, ?_⟩
    · intro i h
      exact hrest.1 i (cacheSet_mono _ _ _ i (hstep.1 i h))
    · intro i h
      rcases hrest.2.1 i h with h1 | h1
      · by_cases hi : i = child.nid
        · exact Or.inr (by simp [childSubNids, hi])
        · rw [cacheLookup_cacheSet, if_neg hi] at h1
          rcases hstep.2.1 i h1 with h2 | h2
          · exact Or.inl h2
          · refine Or.inr ?_
            simp only [childSubNids, List.mem_append, List.mem_cons]
            exact Or.inl (Or.inr h2)
      · refine Or.inr ?_
        simp only [childSubNids, List.mem_append, List.mem_cons]
        exact Or.inr h1
    · intro hfr
      simp only [nidFreshChildren, Bool.and_eq_true] at hfr
      have hs3 := hstep.2.2 hfr.1
      have hn3 := hrest.2.2 hfr.2
      have hstep_cached : ∀ q ∈ (mapChildStep f lo pre c0 name child).2.2,
          cacheLookup (cacheSet (mapChildStep f lo pre c0 name child).2.1 child.nid
            (mapChildStep f lo pre c0 name child).1) q.2.nid ≠ none := by
        intro q hq
        rcases hs3.2.2 q hq with h1 | h1
        · exact cacheSet_mono _ _ _ _ h1
        · rw [h1]
          exact cacheSet_self_ne_none _ _ _
      refine ⟨?_, ?_, ?_⟩
      · rw [List.map_append]
        apply List.Nodup.append hs3.1 hn3.1
        intro x hx hx2
        obtain ⟨q, hq, hqn⟩ := List.mem_map.mp hx
        obtain ⟨q2, hq2, hq2n⟩ := List.mem_map.mp hx2
        have h1 := hstep_cached q hq
        have h2 := hn3.2.1 q2 hq2
        rw [hqn] at h1
        rw [hq2n] at h2
        rw [h2] at h1
        exact h1 rfl
      · intro q hq
        rcases List.mem_append.mp hq with h1 | h1
        · exact hs3.2.1 q h1
        · have h2 := cacheSet_none _ _ _ _ (hn3.2.1 q h1)
          cases hc0 : cacheLookup c0 q.2.nid with
          | none => rfl
          | some w =>
            exact absurd h2 (hstep.1 q.2.nid (by rw [hc0]; simp))
      · intro q hq
        rcases List.mem_append.mp hq with h1 | h1
        · exact hrest.1 _ (hstep_cached q h1)
        · exact hn3.2.2 q h1
termination_by (sizeOf cs, 2)

end

/-- Claim C9: `map_nodes` preserves identity sharing. First, generally: on
any tree whose ids are faithful to object identity (`nidFresh`, which the
live Python heap guarantees), the application log of a `map_nodes` pass —
one entry per call of `map_fn` on a child (composed.py:262, 268) — hits
each node identity at most once. Second, concretely: on a dict whose two
slots `x` and `y` reference the identical child object (same `nid` 5), the
transform is called only at `x`; `y` receives the cached replacement
(composed.py:257-259), so both slots point at one identical result node —
here visibly the `x`-result, although the transform would have produced a
different value at `y`. -/
theorem C9_map_once_per_identity :
    (∀ (f : List String → Node → Node) (lo : Bool) (t : Node),
      nidFresh t = true →
      (((map_nodes f lo [] [] t).2.2).map (fun q => q.2.nid)).Nodup) ∧
    map_nodes
      (fun p _ => Node.scalar { nid := 50 } (if p = ["x"] then 7 else 9))
      true [] []
      (.dict { nid := 1 }
        [("x", .scalar { nid := 5 } 3), ("y", .scalar { nid := 5 } 3)]) =
    (.dict { nid := 1 }
       [("x", .scalar { nid := 50 } 7), ("y", .scalar { nid := 50 } 7)],
     [(5, .scalar { nid := 50 } 7)],
     [(["x"], .scalar { nid := 5 } 3)]) := by
  constructor
  · intro f lo t hfr
    exact ((map_nodes_inv f lo [] [] t).2.2 hfr rfl).1
  · simp +decide [map_nodes, mapChildren, mapChildStep, cacheLookup, cacheSet]

/-- Claim C9, witness: the at-most-once rule applied concretely — a
two-leaf tree with distinct ids has a duplicate-free application log. -/
theorem C9_witness :
    nidFresh (Node.dict { nid := 1 }
      [("x", .scalar { nid := 2 } 3), ("y", .scalar { nid := 5 } 4)]) = true ∧
    (((map_nodes (fun _ n => n) true [] []
        (Node.dict { nid := 1 }
          [("x", .scalar { nid := 2 } 3), ("y", .scalar { nid := 5 } 4)])).2.2).map
      (fun q => q.2.nid)).Nodup :=
  ⟨by simp +decide [nidFresh, nidFreshChildren, childSubNids, strictSubNids],
   C9_map_once_per_identity.1 (fun _ n => n) true _
     (by simp +decide [nidFresh, nidFreshChildren, childSubNids, strictSubNids])⟩
